import Mathlib

/-! # SHAPEIT5: conditioning-state assembly and PBWT site grouping

A shallow embedding of

* `compute_job::make` (`phase_common/src/objects/compute_job.cpp`): the three passes that
  fill `Kstates` (neighbour collection, IBD2 protection, random fallback), and
* `conditioning_set::initialize` (`phase2/src/containers/conditioning_set/`
  `conditioning_set_managment.cpp`): site evaluation and bucket compaction,

followed by the properties proved about them.  The two programs have a class
`conditioning_set` each; they live in the namespaces `phase_common` and `phase2`.

Conventions of the embedding.

* Haplotype ids, individual ids, site indices and vector indices are `Nat`; entries of the
  neighbour table and raw buckets are `Int` (`-1` is the "no neighbour" value).  The embedding
  covers inputs on which the C++ conversions between `int`, `unsigned int` and
  `unsigned long` are the identity (no wrap-around).
* A `std::vector` that the code only reads is a lookup function on its indices, except
  `Ordering`, which is a `List`; reading it outside its bounds, undefined in C++, gives 0.
  Vectors that the code builds are `List`s and `push_back` is `++ [x]`.
* The members of `H`, `G` and `Windows` whose declarations are in headers outside the
  embedded files are parameters: `make` is stated for every value of them.
* `float` and `double` values are exact rationals.  In `make` the only operation on them is
  the comparison with `0.75`, which is exact in both.
* Loops are folds over the list of values taken by the loop variable, or recursions over the
  vector they traverse.
-/

namespace phase_common

/-- The literal `0.75` of the IBD2 test (the value of `MAX_OVERLAP_HETS`): three quarters,
written in lowest terms. -/
def MAX_OVERLAP_HETS : ℚ := Rat.mk' 3 4 (by decide) (by decide)

/-- Number of draws of the fallback loop. -/
def N_RANDOM_HAPS : Nat := 100

/-- An element of `Windows.W`: an inclusive range of site indices. -/
structure window where
  start_locus : Nat
  stop_locus : Nat
deriving DecidableEq, Repr

/-- The members of `conditioning_set` that `compute_job::make` reads.  `getMatchHets` stands
for `H.H_opt_hap.getMatchHets(ind, ind0, start_locus, stop_locus)`. -/
structure conditioning_set where
  n_ind : Nat
  n_hap : Nat
  depth : Nat
  sites_pbwt_ngroups : Nat
  sites_pbwt_selection : Nat → Bool
  sites_pbwt_grouping : Nat → Nat
  indexes_pbwt_neighbour : Nat → Int
  getMatchHets : Nat → Nat → Nat → Nat → ℚ

/-- The members of `genotype_set` that `compute_job::make` reads; `haploid i` is
`G.vecG[i]->haploid`. -/
structure genotype_set where
  n_ind : Nat
  haploid : Nat → Bool

/-- The mutable members of a `compute_job` that `make` touches.  An entry of `Kbanned` is
`(individual, start_locus, stop_locus)`. -/
structure compute_job where
  Kstates : List (List Nat)
  Kbanned : List (Nat × Nat × Nat)
  Ordering : List Nat
  Oiterator : Nat

/-- `std::unique` followed by `erase`: keeps the first element of every run of equal
consecutive elements. -/
def unique : List Nat → List Nat
  | [] => []
  | [a] => [a]
  | a :: b :: t => if a = b then unique (b :: t) else a :: unique (b :: t)

/-- The pair `sort(K.begin(), K.end()); K.erase(unique(K.begin(), K.end()), K.end());`. -/
def sortUnique (K : List Nat) : List Nat :=
  unique (K.insertionSort (· ≤ ·))

/-- Flat address of the neighbour table, lines 55, 63 and 64:
`s * addr_offset + h * H.sites_pbwt_ngroups + b`. -/
def addr (H : conditioning_set) (s h b : Nat) : Nat :=
  s * (H.sites_pbwt_ngroups * H.n_ind * 2) + h * H.sites_pbwt_ngroups + b

/-- The same address as the machine computes it when every product and sum is taken in the
64 bits of `unsigned long`, the type of `addr_offset`, `curr_hap0` and `curr_hap1`
(lines 55 and 57). -/
def addr_wrapping (H : conditioning_set) (s h b : Nat) : Nat :=
  (((s * ((H.sites_pbwt_ngroups * H.n_ind * 2) % 2 ^ 64)) % 2 ^ 64 +
    (h * H.sites_pbwt_ngroups) % 2 ^ 64) % 2 ^ 64 + b) % 2 ^ 64

/-- The neighbour of rank `s` of haplotype `h` at site `l`:
`H.indexes_pbwt_neighbour[s * addr_offset + h * H.sites_pbwt_ngroups + H.sites_pbwt_grouping[l]]`. -/
def neighbour (H : conditioning_set) (s h l : Nat) : Int :=
  H.indexes_pbwt_neighbour (addr H s h (H.sites_pbwt_grouping l))

/-- Lines 65 and 66 for one candidate `c` and its slot `i` of `phap`.  The state is
`(Kstates[w], phap)`. -/
def pushCand (c : Int) (i : Nat) (st : List Nat × List Int) : List Nat × List Int :=
  if 0 ≤ c ∧ c ≠ st.2.getD i (-1) then (st.1 ++ [c.toNat], st.2.set i c) else st

/-- Body of the loop over the ranks `s` (lines 63 to 66). -/
def rankStep (H : conditioning_set) (ind l : Nat) (st : List Nat × List Int) (s : Nat) :
    List Nat × List Int :=
  let cond_hap0 := neighbour H s (2 * ind + 0) l
  let cond_hap1 := neighbour H s (2 * ind + 1) l
  pushCand cond_hap1 (2 * s + 1) (pushCand cond_hap0 (2 * s + 0) st)

/-- Body of the loop over the sites `l` of a window (lines 61 to 68). -/
def siteStep (H : conditioning_set) (ind : Nat) (st : List Nat × List Int) (l : Nat) :
    List Nat × List Int :=
  if H.sites_pbwt_selection l then (List.range H.depth).foldl (rankStep H ind l) st else st

/-- The values taken by `l` in `for (l = start_locus ; l <= stop_locus ; l++)`. -/
def loci (w : window) : List Nat :=
  List.range' w.start_locus (w.stop_locus + 1 - w.start_locus)

/-- Lines 59 to 69: `Kstates[w]` before it is sorted. -/
def collect (H : conditioning_set) (ind : Nat) (w : window) : List Nat :=
  ((loci w).foldl (siteStep H ind) ([], List.replicate (2 * H.depth) (-1))).1

/-- Lines 59 to 71 for one window. -/
def buildWindow (H : conditioning_set) (ind : Nat) (w : window) : List Nat :=
  sortUnique (collect H ind w)

/-- Step 2 of `make` (lines 56 to 72): one freshly built list per window. -/
def buildPass (H : conditioning_set) (ind : Nat) (W : List window) : List (List Nat) :=
  W.map (buildWindow H ind)

/-- State of the scan of step 3.1.  `queried` is a trace: the second argument of every call
of `getMatchHets`, in call order. -/
structure scan_state where
  toBeRemoved : List Nat
  Kbanned : List (Nat × Nat × Nat)
  queried : List Nat

/-- Body of the loop of step 3.1 (lines 81 to 91) at index `k`. -/
def ibd2Step (G : genotype_set) (H : conditioning_set) (ind : Nat) (w : window) (K : List Nat)
    (st : scan_state) (k : Nat) : scan_state :=
  let ind0 := K.getD (k - 1) 0 / 2
  let ind1 := K.getD k 0 / 2
  if ind0 = ind1 ∧ ind0 < G.n_ind ∧ G.haploid ind0 = false then
    let het_overlap := H.getMatchHets ind ind0 w.start_locus w.stop_locus
    if het_overlap > MAX_OVERLAP_HETS then
      { toBeRemoved := st.toBeRemoved ++ [k - 1, k],
        Kbanned := st.Kbanned ++ [(ind0, w.start_locus, w.stop_locus)],
        queried := st.queried ++ [ind0] }
    else { st with queried := st.queried ++ [ind0] }
  else st

/-- Step 3.1 for one window: `k` runs from `1` to `Kstates[w].size() - 1`; `toBeRemoved`
starts empty, `Kbanned` is the vector filled so far. -/
def ibd2Scan (G : genotype_set) (H : conditioning_set) (ind : Nat) (w : window) (K : List Nat)
    (Kbanned : List (Nat × Nat × Nat)) (queried : List Nat) : scan_state :=
  (List.range' 1 (K.length - 1)).foldl (ibd2Step G H ind w K)
    { toBeRemoved := [], Kbanned := Kbanned, queried := queried }

/-- Body of the loop of step 3.2 (lines 99 and 100); the state is `(Ktmp, p)`. -/
def removeStep (K R : List Nat) (st : List Nat × Nat) (k : Nat) : List Nat × Nat :=
  if st.2 < R.length ∧ R.getD st.2 0 = k then (st.1, st.2 + 1)
  else (st.1 ++ [K.getD k 0], st.2)

/-- The loop of step 3.2 (lines 96 to 101): `Ktmp`. -/
def removeMarked (K R : List Nat) : List Nat :=
  ((List.range K.length).foldl (removeStep K R) ([], 0)).1

/-- Step 3.2 for one window (lines 95 to 106). -/
def ibd2Remove (K R : List Nat) : List Nat :=
  if R.length > 0 then sortUnique (removeMarked K R) else K

/-- State of step 3 after some windows: their lists, `Kbanned` and the query trace. -/
structure ibd2_state where
  Kstates : List (List Nat)
  Kbanned : List (Nat × Nat × Nat)
  queried : List Nat

/-- Step 3 of `make` from window `w` on (lines 76 to 107). -/
def ibd2Loop (G : genotype_set) (H : conditioning_set) (ind : Nat) :
    List window → List (List Nat) → List (Nat × Nat × Nat) → List Nat → ibd2_state
  | w :: W, K :: Ks, Kbanned, queried =>
    let sc := ibd2Scan G H ind w K Kbanned queried
    let r := ibd2Loop G H ind W Ks sc.Kbanned sc.queried
    { r with Kstates := ibd2Remove K sc.toBeRemoved :: r.Kstates }
  | _, _, Kbanned, queried => { Kstates := [], Kbanned := Kbanned, queried := queried }

/-- Step 3 of `make` (lines 75 to 107), `Kbanned.clear()` included. -/
def ibd2Pass (G : genotype_set) (H : conditioning_set) (ind : Nat) (W : List window)
    (Ks : List (List Nat)) : ibd2_state :=
  ibd2Loop G H ind W Ks [] []

/-- Body of the draw loop (lines 113 to 115); the state is `(Kstates[w], Oiterator)`. -/
def drawStep (H : conditioning_set) (Ordering : List Nat) (ind : Nat) (st : List Nat × Nat)
    (_i : Nat) : List Nat × Nat :=
  let random_state := Ordering.getD st.2 0
  (if random_state / 2 ≠ ind then st.1 ++ [random_state] else st.1,
   if st.2 + 1 = H.n_hap then 0 else st.2 + 1)

/-- Step 4 for one window (lines 111 to 120): the new `(Kstates[w], Oiterator)`. -/
def fallbackWindow (H : conditioning_set) (Ordering : List Nat) (ind : Nat) (K : List Nat)
    (Oiterator : Nat) : List Nat × Nat :=
  if K.length < 2 then
    let st := (List.range N_RANDOM_HAPS).foldl (drawStep H Ordering ind) (K, Oiterator)
    (sortUnique st.1, st.2)
  else (K, Oiterator)

/-- Step 4 of `make` (lines 110 to 121): the new `(Kstates, Oiterator)`. -/
def fallbackPass (H : conditioning_set) (Ordering : List Nat) (ind : Nat) :
    List (List Nat) → Nat → List (List Nat) × Nat
  | [], Oiterator => ([], Oiterator)
  | K :: Ks, Oiterator =>
    let r := fallbackWindow H Ordering ind K Oiterator
    let rs := fallbackPass H Ordering ind Ks r.2
    (r.1 :: rs.1, rs.2)

/-- The function `compute_job::make(ind, min_window_size)`.  `W` is `Windows.W` as filled by
`Windows.build(V, G.vecG[ind], min_window_size)`, whose return value `n_windows` is the
number of windows; `job` is the state of the object before the call.  `Kstates` and `Kbanned`
are rebuilt, `Ordering` is only read. -/
def compute_job.make (H : conditioning_set) (G : genotype_set) (W : List window)
    (job : compute_job) (ind : Nat) : compute_job :=
  let s3 := ibd2Pass G H ind W (buildPass H ind W)
  let s4 := fallbackPass H job.Ordering ind s3.Kstates job.Oiterator
  { Kstates := s4.1, Kbanned := s3.Kbanned, Ordering := job.Ordering, Oiterator := s4.2 }

set_option linter.dupNamespace false in
/-- The constructor `compute_job::compute_job(V, G, H, n_max_transitions, n_max_missing)`,
lines 30 to 36: `Ordering` is filled by `iota` with `0, 1, ..., H.n_hap - 1` and `Oiterator`
is 0; `Kstates` and `Kbanned` are default-constructed.  The buffers `T` and `M`, which `make`
does not touch, are not part of the embedding. -/
def compute_job.compute_job (H : conditioning_set) (_n_max_transitions _n_max_missing : Nat) :
    compute_job :=
  { Kstates := [], Kbanned := [], Ordering := List.range H.n_hap, Oiterator := 0 }

/-- The individuals for which `make` calls `getMatchHets`, in call order. -/
def compute_job.queried (H : conditioning_set) (G : genotype_set) (W : List window)
    (ind : Nat) : List Nat :=
  (ibd2Pass G H ind W (buildPass H ind W)).queried

/-! ## Invariants and structural forms of the loops

The loops of step 3 run over indices; the definitions below restate them by recursion on the
list, and the lemmas `ibd2Scan_eq` and `removeMarked_eq` show that they compute the same. -/

/-- Invariant of `(Kstates[w], phap)`: every recorded previous value is already in the list. -/
def PInv (st : List Nat × List Int) : Prop :=
  ∀ i, 0 ≤ st.2.getD i (-1) → (st.2.getD i (-1)).toNat ∈ st.1

/-- Structural form of a loop `for (k = k0 ; k < size ; k++)` whose body reads `K[k-1]` and
`K[k]`: the list holds `K[k-1], K[k], ...`. -/
def pairFold {σ : Type} (f : σ → Nat → Nat → Nat → σ) : Nat → List Nat → σ → σ
  | k, a :: b :: t, st => pairFold f (k + 1) (b :: t) (f st k a b)
  | _, _, st => st

/-- Body of the loop of step 3.1 on the values `a = K[k-1]` and `b = K[k]`. -/
def ibd2Body (G : genotype_set) (H : conditioning_set) (ind : Nat) (w : window)
    (st : scan_state) (k a b : Nat) : scan_state :=
  if a / 2 = b / 2 ∧ a / 2 < G.n_ind ∧ G.haploid (a / 2) = false then
    if H.getMatchHets ind (a / 2) w.start_locus w.stop_locus > MAX_OVERLAP_HETS then
      { toBeRemoved := st.toBeRemoved ++ [k - 1, k],
        Kbanned := st.Kbanned ++ [(a / 2, w.start_locus, w.stop_locus)],
        queried := st.queried ++ [a / 2] }
    else { st with queried := st.queried ++ [a / 2] }
  else st

/-- The tests of line 83 on individual `j`, the one on `ind0 == ind1` apart. -/
def diploidInd (G : genotype_set) (j : Nat) : Bool :=
  decide (j < G.n_ind) && !G.haploid j

/-- The tests of lines 83 and 85 on individual `j`, the one on `ind0 == ind1` apart. -/
def ibd2Ind (G : genotype_set) (H : conditioning_set) (ind : Nat) (w : window) (j : Nat) :
    Bool :=
  diploidInd G j && decide (H.getMatchHets ind j w.start_locus w.stop_locus > MAX_OVERLAP_HETS)

/-- Positions marked by the scan: the list holds `K[k-1], K[k], ...`; `c j` is the outcome
of the tests on individual `j`. -/
def marks (c : Nat → Bool) : Nat → List Nat → List Nat
  | k, a :: b :: t =>
    (if a / 2 = b / 2 ∧ c (a / 2) = true then [k - 1, k] else []) ++ marks c (k + 1) (b :: t)
  | _, _ => []

/-- Individuals of the adjacent same-individual pairs that pass `c`, in scan order. -/
def tags (c : Nat → Bool) : List Nat → List Nat
  | a :: b :: t => (if a / 2 = b / 2 ∧ c (a / 2) = true then [a / 2] else []) ++ tags c (b :: t)
  | _ => []

/-- Structural form of the loop of step 3.2: the first list holds `K[k], K[k+1], ...`, the
second `toBeRemoved[p], toBeRemoved[p+1], ...`. -/
def rm : Nat → List Nat → List Nat → List Nat
  | _, [], _ => []
  | k, a :: t, [] => a :: rm (k + 1) t []
  | k, a :: t, r :: R => if r = k then rm (k + 1) t R else a :: rm (k + 1) t (r :: R)

/-- The list without its adjacent same-individual pairs that pass `c`. -/
def keep (c : Nat → Bool) : List Nat → List Nat
  | a :: b :: t => if a / 2 = b / 2 ∧ c (a / 2) = true then keep c t else a :: keep c (b :: t)
  | [a] => [a]
  | [] => []

/-- Whether both haplotypes of the individual of `x` are in `K` and the individual passes `c`. -/
def pairIn (c : Nat → Bool) (K : List Nat) (x : Nat) : Bool :=
  decide (2 * (x / 2) ∈ K) && decide (2 * (x / 2) + 1 ∈ K) && c (x / 2)

/-! ## Vocabulary of the statements -/

/-- Individual `j` is flagged in window `w`, whose list before the IBD2 pass is `K`: both
its haplotypes are in `K`, it is an individual of `G`, it is not haploid and its
heterozygote overlap with the target exceeds three quarters. -/
def flagged (G : genotype_set) (H : conditioning_set) (ind : Nat) (w : window) (K : List Nat)
    (j : Nat) : Prop :=
  2 * j ∈ K ∧ 2 * j + 1 ∈ K ∧ j < G.n_ind ∧ G.haploid j = false ∧
    H.getMatchHets ind j w.start_locus w.stop_locus > 3 / 4

instance flagged.decidable (G : genotype_set) (H : conditioning_set) (ind : Nat) (w : window)
    (K : List Nat) (j : Nat) : Decidable (flagged G H ind w K j) := by
  unfold flagged
  infer_instance

/-- The flagged individuals of window `w`, in the order of their haplotypes in `K`. -/
def flaggedInds (G : genotype_set) (H : conditioning_set) (ind : Nat) (w : window)
    (K : List Nat) : List Nat :=
  (K.filter (fun x => decide (x % 2 = 0 ∧ flagged G H ind w K (x / 2)))).map (· / 2)

/-- The draws of the fallback loop started with `Oiterator = c` that are appended: the values
`Ordering[(c + i) mod n_hap]`, `i < N_RANDOM_HAPS`, that do not belong to the target. -/
def acceptedDraws (H : conditioning_set) (Ordering : List Nat) (ind c : Nat) : List Nat :=
  ((List.range N_RANDOM_HAPS).map (fun i => Ordering.getD ((c + i) % H.n_hap) 0)).filter
    (fun v => decide (v / 2 ≠ ind))

/-- The value of `Oiterator` when the loop of step 4 reaches window `i`, for the lists `Ks`
left by step 3 and the value `c` of `Oiterator` on entry. -/
def cursorAt (H : conditioning_set) (Ordering : List Nat) (ind : Nat) (Ks : List (List Nat))
    (c i : Nat) : Nat :=
  (fallbackPass H Ordering ind (Ks.take i) c).2

/-- All the neighbour lookups of the build pass in window `w`: both haplotypes of the target,
every rank, every selected site of the window. -/
def lookups (H : conditioning_set) (ind : Nat) (w : window) : List Int :=
  ((loci w).filter H.sites_pbwt_selection).flatMap (fun l =>
    (List.range H.depth).flatMap (fun s =>
      [neighbour H s (2 * ind + 0) l, neighbour H s (2 * ind + 1) l]))

/-- A single global deduplication of the lookups of window `w`: the non-negative values,
each kept once, in ascending order. -/
def globalDedup (H : conditioning_set) (ind : Nat) (w : window) : List Nat :=
  (((lookups H ind w).filter (fun c => decide (0 ≤ c))).map Int.toNat).dedup.insertionSort
    (· ≤ ·)

/-- The neighbour table does not list a haplotype of the target among the neighbours of the
target's haplotypes that `make` looks up in the windows `W`. -/
def tableExcludesTarget (H : conditioning_set) (ind : Nat) (W : List window) : Prop :=
  ∀ w ∈ W, ∀ l s p, w.start_locus ≤ l → l ≤ w.stop_locus → H.sites_pbwt_selection l = true →
    s < H.depth → p < 2 →
      neighbour H s (2 * ind + p) l ≠ ((2 * ind : Nat) : Int) ∧
      neighbour H s (2 * ind + p) l ≠ ((2 * ind + 1 : Nat) : Int)

/-! ## Concrete scenarios -/

/-- Every individual is diploid; there are `n` of them. -/
def diploids (n : Nat) : genotype_set :=
  { n_ind := n, haploid := fun _ => false }

/-- Scenario of the specification: one selected site, depth 4, the lookups of haplotype 0 for
the ranks 0 to 3 are 5, 5, 7 and -1, those of haplotype 1 are all -1. -/
def scenarioDedup : conditioning_set :=
  { n_ind := 10, n_hap := 20, depth := 4, sites_pbwt_ngroups := 1,
    sites_pbwt_selection := fun _ => true,
    sites_pbwt_grouping := fun _ => 0,
    indexes_pbwt_neighbour := fun a =>
      if a = 0 then 5 else if a = 20 then 5 else if a = 40 then 7 else -1,
    getMatchHets := fun _ _ _ _ => 0 }

/-- Scenario of the specification: four windows of one site each, one bucket per site,
depth 2; in window 3 the neighbours of haplotype 0 are the haplotypes 4 and 5 of individual 2,
whose heterozygote overlap with the target is 0.82. -/
def scenarioIBD2 : conditioning_set :=
  { n_ind := 3, n_hap := 6, depth := 2, sites_pbwt_ngroups := 4,
    sites_pbwt_selection := fun _ => true,
    sites_pbwt_grouping := fun l => l,
    indexes_pbwt_neighbour := fun a => if a = 3 then 4 else if a = 27 then 5 else -1,
    getMatchHets := fun _ _ _ _ => Rat.mk' 41 50 (by decide) (by decide) }

/-- The four windows of `scenarioIBD2`. -/
def scenarioWindows : List window :=
  [⟨0, 0⟩, ⟨1, 1⟩, ⟨2, 2⟩, ⟨3, 3⟩]

/-- Scenario of the specification: ten individuals, a table without any neighbour, so that
every window has 0 candidates before the fallback. -/
def scenarioEmpty : conditioning_set :=
  { n_ind := 10, n_hap := 20, depth := 2, sites_pbwt_ngroups := 1,
    sites_pbwt_selection := fun _ => true,
    sites_pbwt_grouping := fun _ => 0,
    indexes_pbwt_neighbour := fun _ => -1,
    getMatchHets := fun _ _ _ _ => 0 }

/-- A table that lists the second haplotype of individual 0 as the neighbour of its first
haplotype, and haplotype 5 as the neighbour of its second haplotype (depth 1, one bucket). -/
def scenarioSibling : conditioning_set :=
  { n_ind := 3, n_hap := 6, depth := 1, sites_pbwt_ngroups := 1,
    sites_pbwt_selection := fun _ => true,
    sites_pbwt_grouping := fun _ => 0,
    indexes_pbwt_neighbour := fun a => if a = 0 then 1 else 5,
    getMatchHets := fun _ _ _ _ => 0 }

/-- A table that lists each haplotype of individual 0 as the neighbour of the other one
(depth 1, one bucket); the heterozygote overlap of an individual with itself is 1. -/
def scenarioSelfPair : conditioning_set :=
  { n_ind := 3, n_hap := 6, depth := 1, sites_pbwt_ngroups := 1,
    sites_pbwt_selection := fun _ => true,
    sites_pbwt_grouping := fun _ => 0,
    indexes_pbwt_neighbour := fun a => if a = 0 then 1 else 0,
    getMatchHets := fun _ _ _ _ => 1 }

/-- A single individual and nothing else: both haplotypes of the universe belong to target 0,
and the table holds no neighbour. -/
def scenarioLonely : conditioning_set :=
  { n_ind := 1, n_hap := 2, depth := 1, sites_pbwt_ngroups := 1,
    sites_pbwt_selection := fun _ => true,
    sites_pbwt_grouping := fun _ => 0,
    indexes_pbwt_neighbour := fun _ => -1,
    getMatchHets := fun _ _ _ _ => 0 }

/-- A job whose ordering is the identity on six haplotypes, as left by the constructor. -/
def freshJob : compute_job :=
  { Kstates := [], Kbanned := [], Ordering := [0, 1, 2, 3, 4, 5], Oiterator := 0 }

end phase_common

namespace phase2

/-- A site `V.vec_pos[l]` of the variant map: the values `getMAC()`, `getMDR()` and `cm`
read by `conditioning_set::initialize`. -/
structure variant where
  MAC : Int
  MDR : ℚ
  cm : ℚ

/-- The C function `round` on an exact value: the nearest integer, halves away from zero. -/
def cround (q : ℚ) : Int :=
  if 0 ≤ q then ⌊q + 1 / 2⌋ else ⌈q - 1 / 2⌉

/-- State of the compaction loop (line 52): the entries of `sites_pbwt_grouping` rewritten so
far, `src` and `tar`. -/
structure compact_state where
  out : List Int
  src : Int
  tar : Int

/-- Body of the compaction loop (lines 53 and 54) at a site whose raw bucket is `g`. -/
def compactStep (st : compact_state) (g : Int) : compact_state :=
  if st.src = g then { st with out := st.out ++ [st.tar] }
  else { out := st.out ++ [st.tar + 1], src := g, tar := st.tar + 1 }

/-- The compaction loop (lines 52 to 55) on the raw buckets of all sites. -/
def compact (raw : List Int) : List Int :=
  (raw.foldl compactStep { out := [], src := -1, tar := -1 }).out

/-- The members of `conditioning_set` set by `initialize`, and the count `n_evaluated` it
reports.  `sites_pbwt_ngroups` is `none` when `sites_pbwt_grouping.back()` is taken on an
empty vector, which C++ leaves undefined. -/
structure conditioning_set where
  depth : Int
  sites_pbwt_evaluation : List Bool
  sites_pbwt_grouping : List Int
  sites_pbwt_ngroups : Option Int
  n_evaluated : Nat

/-- The raw bucket of a site, line 49: `(int)round(V.vec_pos[l]->cm / _modulo_selection)`,
computed exactly.  For `_modulo_selection = 0` the C++ quotient is infinite or not a number
and its conversion to `int` is undefined; the embedding is meant for the other values. -/
def bucket_raw (_modulo_selection : ℚ) (v : variant) : Int :=
  cround (v.cm / _modulo_selection)

/-- The function `conditioning_set::initialize(V, _modulo_selection, _mdr, _depth, _mac)`,
lines 41 to 56. -/
def conditioning_set.initialize (V : List variant) (_modulo_selection _mdr : ℚ)
    (_depth _mac : Int) : conditioning_set :=
  let evaluation := V.map (fun v => decide (v.MAC ≥ _mac ∧ v.MDR ≤ _mdr))
  let grouping := compact (V.map (bucket_raw _modulo_selection))
  { depth := _depth,
    sites_pbwt_evaluation := evaluation,
    sites_pbwt_grouping := grouping,
    sites_pbwt_ngroups := grouping.getLast?.map (· + 1),
    n_evaluated := evaluation.count true }

/-- Structural form of the compaction loop: the ids written from a state `(src, tar)` on. -/
def compactFrom : Int → Int → List Int → List Int
  | _, _, [] => []
  | src, tar, g :: raw =>
    if src = g then tar :: compactFrom src tar raw else (tar + 1) :: compactFrom g (tar + 1) raw

/-- Scenario of the specification: four sites at 0.0, 0.4, 1.2 and 1.3 cM; minor allele
counts and missing rates play no part in the buckets. -/
def scenarioSites : List variant :=
  [⟨0, 0, 0⟩, ⟨0, 0, 2 / 5⟩, ⟨0, 0, 6 / 5⟩, ⟨0, 0, 13 / 10⟩]

end phase2

namespace phase_common

/-! ## Sorting and deduplication -/

/-- Removing consecutive repeats keeps the members. -/
theorem mem_unique (x : Nat) : ∀ l : List Nat, x ∈ unique l ↔ x ∈ l
  | [] => by simp [unique]
  | [a] => by simp [unique]
  | a :: b :: t => by
    have ih := mem_unique x (b :: t)
    unfold unique
    split_ifs with h
    · subst h
      rw [ih]
      simp
    · rw [List.mem_cons, ih, List.mem_cons (a := x) (b := a)]

/-- On an ascending list, removing consecutive repeats leaves a strictly ascending list. -/
theorem unique_sorted : ∀ l : List Nat, l.Sorted (· ≤ ·) → (unique l).Sorted (· < ·)
  | [], _ => by simp [unique]
  | [a], _ => by simp [unique]
  | a :: b :: t, h => by
    have hs := List.sorted_cons.1 h
    have ih := unique_sorted (b :: t) hs.2
    unfold unique
    split_ifs with hab
    · exact ih
    · refine List.sorted_cons.2 ⟨?_, ih⟩
      intro y hy
      have hy' : y ∈ b :: t := (mem_unique y (b :: t)).1 hy
      have h1 : a ≤ b := hs.1 b (List.mem_cons_self _ _)
      have h2 : b ≤ y := by
        rcases List.mem_cons.1 hy' with rfl | hyt
        · exact le_rfl
        · exact (List.sorted_cons.1 hs.2).1 y hyt
      omega

/-- A strictly ascending list has no consecutive repeats to remove. -/
theorem unique_of_sorted : ∀ l : List Nat, l.Sorted (· < ·) → unique l = l
  | [], _ => by simp [unique]
  | [a], _ => by simp [unique]
  | a :: b :: t, h => by
    have hs := List.sorted_cons.1 h
    have hab : a ≠ b := Nat.ne_of_lt (hs.1 b (List.mem_cons_self _ _))
    unfold unique
    rw [if_neg hab, unique_of_sorted (b :: t) hs.2]

/-- The result of sort and unique is strictly ascending. -/
theorem sortUnique_sorted (K : List Nat) : (sortUnique K).Sorted (· < ·) :=
  unique_sorted _ (List.sorted_insertionSort (· ≤ ·) K)

/-- Sort and unique keep the members. -/
theorem mem_sortUnique (x : Nat) (K : List Nat) : x ∈ sortUnique K ↔ x ∈ K := by
  unfold sortUnique
  rw [mem_unique]
  exact (List.perm_insertionSort (· ≤ ·) K).mem_iff

/-- Sort and unique leave a strictly ascending list as it is. -/
theorem sortUnique_of_sorted (K : List Nat) (h : K.Sorted (· < ·)) : sortUnique K = K := by
  unfold sortUnique
  have hle : K.Sorted (· ≤ ·) := h.imp (fun hab => Nat.le_of_lt hab)
  rw [List.Sorted.insertionSort_eq hle]
  exact unique_of_sorted K h

/-- Two strictly ascending lists with the same members are equal. -/
theorem sorted_ext {l₁ l₂ : List Nat} (h₁ : l₁.Sorted (· < ·)) (h₂ : l₂.Sorted (· < ·))
    (h : ∀ x, x ∈ l₁ ↔ x ∈ l₂) : l₁ = l₂ :=
  List.eq_of_perm_of_sorted ((List.perm_ext_iff_of_nodup h₁.nodup h₂.nodup).2 h) h₁ h₂

/-! ## The neighbour collection of step 2 -/

/-- After `phap[i] = c` an entry of `phap` is `c` or what it was. -/
theorem getD_set_cases (p : List Int) (i j : Nat) (c : Int) :
    (p.set i c).getD j (-1) = c ∨ (p.set i c).getD j (-1) = p.getD j (-1) := by
  by_cases hi : i < p.length
  · by_cases hij : i = j
    · left
      subst hij
      simp [List.getD_eq_getElem?_getD, List.getElem?_set, hi]
    · right
      simp [List.getD_eq_getElem?_getD, List.getElem?_set, hij]
  · right
    rw [List.set_eq_of_length_le (Nat.le_of_not_lt hi)]

/-- An entry of the list after lines 65 and 66 was there before or is the candidate. -/
theorem pushCand_mem (c : Int) (i : Nat) (st : List Nat × List Int) (x : Nat) :
    x ∈ (pushCand c i st).1 → x ∈ st.1 ∨ (0 ≤ c ∧ x = c.toNat) := by
  unfold pushCand
  split_ifs with h
  · intro hx
    rcases List.mem_append.1 hx with hx | hx
    · exact Or.inl hx
    · exact Or.inr ⟨h.1, List.mem_singleton.1 hx⟩
  · exact Or.inl

/-- Lines 65 and 66 keep the entries of the list. -/
theorem pushCand_mono (c : Int) (i : Nat) (st : List Nat × List Int) (x : Nat)
    (hx : x ∈ st.1) : x ∈ (pushCand c i st).1 := by
  unfold pushCand
  split_ifs with h
  · exact List.mem_append_left _ hx
  · exact hx

/-- Lines 65 and 66 keep the invariant of `phap`. -/
theorem pushCand_inv (c : Int) (i : Nat) (st : List Nat × List Int) (h : PInv st) :
    PInv (pushCand c i st) := by
  unfold pushCand
  split_ifs with hc
  · intro j hj
    rcases getD_set_cases st.2 i j c with e | e
    · simp only [e]
      exact List.mem_append_right _ (List.mem_singleton.2 rfl)
    · simp only [e] at hj ⊢
      exact List.mem_append_left _ (h j hj)
  · exact h

/-- Under the invariant a non-negative candidate is in the list after lines 65 and 66, pushed now
or before. -/
theorem pushCand_complete (c : Int) (i : Nat) (st : List Nat × List Int) (h : PInv st)
    (hc : 0 ≤ c) : c.toNat ∈ (pushCand c i st).1 := by
  unfold pushCand
  split_ifs with hc'
  · exact List.mem_append_right _ (List.mem_singleton.2 rfl)
  · have e : c = st.2.getD i (-1) := by
      by_contra hne
      exact hc' ⟨hc, hne⟩
    have := h i (e ▸ hc)
    rw [← e] at this
    exact this

/-- A table entry equals the haplotype `x` iff it is non-negative and converts to `x`. -/
theorem int_eq_cast_iff (c : Int) (x : Nat) : c = (x : Int) ↔ 0 ≤ c ∧ x = c.toNat := by
  constructor
  · rintro rfl
    exact ⟨Int.ofNat_nonneg x, (Int.toNat_ofNat x).symm⟩
  · rintro ⟨h, rfl⟩
    exact (Int.toNat_of_nonneg h).symm

/-- One rank keeps the invariant of `phap`. -/
theorem rankStep_inv (H : conditioning_set) (ind l s : Nat) (st : List Nat × List Int)
    (h : PInv st) : PInv (rankStep H ind l st s) :=
  pushCand_inv _ _ _ (pushCand_inv _ _ _ h)

/-- The list after one rank: what it held, and the two lookups of this rank. -/
theorem rankStep_mem (H : conditioning_set) (ind l s : Nat) (st : List Nat × List Int)
    (h : PInv st) (x : Nat) :
    x ∈ (rankStep H ind l st s).1 ↔
      x ∈ st.1 ∨ ∃ p, p < 2 ∧ neighbour H s (2 * ind + p) l = (x : Int) := by
  unfold rankStep
  constructor
  · intro hx
    rcases pushCand_mem _ _ _ _ hx with hx | hx
    · rcases pushCand_mem _ _ _ _ hx with hx | hx
      · exact Or.inl hx
      · exact Or.inr ⟨0, by omega, (int_eq_cast_iff _ _).2 hx⟩
    · exact Or.inr ⟨1, by omega, (int_eq_cast_iff _ _).2 hx⟩
  · rintro (hx | ⟨p, hp, e⟩)
    · exact pushCand_mono _ _ _ _ (pushCand_mono _ _ _ _ hx)
    · have hp' : p = 0 ∨ p = 1 := by omega
      rcases hp' with rfl | rfl
      · have hc := (int_eq_cast_iff _ _).1 e
        refine pushCand_mono _ _ _ _ ?_
        rw [hc.2]
        exact pushCand_complete _ _ _ h hc.1
      · have hc := (int_eq_cast_iff _ _).1 e
        rw [hc.2]
        exact pushCand_complete _ _ _ (pushCand_inv _ _ _ h) hc.1

/-- The loop over the ranks at one site. -/
theorem rankFold_spec (H : conditioning_set) (ind l : Nat) :
    ∀ (ss : List Nat) (st : List Nat × List Int), PInv st →
      PInv (ss.foldl (rankStep H ind l) st) ∧
      ∀ x, x ∈ (ss.foldl (rankStep H ind l) st).1 ↔
        x ∈ st.1 ∨ ∃ s ∈ ss, ∃ p, p < 2 ∧ neighbour H s (2 * ind + p) l = (x : Int)
  | [], st, h => ⟨h, fun x => by simp⟩
  | s :: ss, st, h => by
    have ih := rankFold_spec H ind l ss (rankStep H ind l st s) (rankStep_inv H ind l s st h)
    refine ⟨ih.1, fun x => ?_⟩
    rw [List.foldl_cons, ih.2 x, rankStep_mem H ind l s st h x]
    simp only [List.mem_cons, exists_eq_or_imp, or_assoc]

/-- One site of the window, selected or not. -/
theorem siteStep_spec (H : conditioning_set) (ind l : Nat) (st : List Nat × List Int)
    (h : PInv st) :
    PInv (siteStep H ind st l) ∧
    ∀ x, x ∈ (siteStep H ind st l).1 ↔
      x ∈ st.1 ∨ (H.sites_pbwt_selection l = true ∧
        ∃ s, s < H.depth ∧ ∃ p, p < 2 ∧ neighbour H s (2 * ind + p) l = (x : Int)) := by
  unfold siteStep
  split_ifs with hsel
  · have := rankFold_spec H ind l (List.range H.depth) st h
    refine ⟨this.1, fun x => ?_⟩
    rw [this.2 x]
    simp only [List.mem_range, hsel, true_and]
  · exact ⟨h, fun x => by simp [hsel]⟩

/-- The loop over the sites of a window. -/
theorem siteFold_spec (H : conditioning_set) (ind : Nat) :
    ∀ (ls : List Nat) (st : List Nat × List Int), PInv st →
      PInv (ls.foldl (siteStep H ind) st) ∧
      ∀ x, x ∈ (ls.foldl (siteStep H ind) st).1 ↔
        x ∈ st.1 ∨ ∃ l ∈ ls, H.sites_pbwt_selection l = true ∧
          ∃ s, s < H.depth ∧ ∃ p, p < 2 ∧ neighbour H s (2 * ind + p) l = (x : Int)
  | [], st, h => ⟨h, fun x => by simp⟩
  | l :: ls, st, h => by
    have h1 := siteStep_spec H ind l st h
    have ih := siteFold_spec H ind ls (siteStep H ind st l) h1.1
    refine ⟨ih.1, fun x => ?_⟩
    rw [List.foldl_cons, ih.2 x, h1.2 x]
    simp only [List.mem_cons, exists_eq_or_imp, or_assoc]

/-- The invariant holds for the empty list and `phap` filled with -1. -/
theorem PInv_init (n : Nat) : PInv ([], List.replicate n (-1)) := by
  intro i hi
  exfalso
  have : (List.replicate n (-1 : Int)).getD i (-1) = -1 := by
    simp only [List.getD_eq_getElem?_getD, List.getElem?_replicate]
    split_ifs <;> rfl
  simp only [this] at hi
  omega

/-- The loop variable `l` takes the values from `start_locus` to `stop_locus`. -/
theorem mem_loci (w : window) (l : Nat) :
    l ∈ loci w ↔ w.start_locus ≤ l ∧ l ≤ w.stop_locus := by
  unfold loci
  rw [List.mem_range'_1]
  omega

/-- Membership in the list built for one window. -/
theorem mem_buildWindow (H : conditioning_set) (ind : Nat) (w : window) (x : Nat) :
    x ∈ buildWindow H ind w ↔
      ∃ l, (w.start_locus ≤ l ∧ l ≤ w.stop_locus) ∧ H.sites_pbwt_selection l = true ∧
        ∃ s, s < H.depth ∧ ∃ p, p < 2 ∧ neighbour H s (2 * ind + p) l = (x : Int) := by
  unfold buildWindow collect
  rw [mem_sortUnique, (siteFold_spec H ind (loci w) _ (PInv_init _)).2 x]
  simp only [List.not_mem_nil, false_or, mem_loci]

/-! ## The IBD2 scan and removal of step 3 -/

/-- The element at index `k` heads the list from `k` on. -/
theorem getD_of_drop (K : List Nat) (k a : Nat) (t : List Nat) (h : K.drop k = a :: t) :
    K.getD k 0 = a ∧ K.drop (k + 1) = t := by
  have h0 : (K.drop k)[0]? = some a := by rw [h]; simp
  rw [List.getElem?_drop] at h0
  constructor
  · rw [List.getD_eq_getElem?_getD]
    simpa using congrArg (fun o => o.getD 0) h0
  · have : K.drop (k + 1) = (K.drop k).drop 1 := by rw [List.drop_drop]
    rw [this, h]
    rfl

/-- A loop over `k` that reads `K[k-1]` and `K[k]` is a recursion over the list. -/
theorem pairFold_bridge {σ : Type} (f : σ → Nat → Nat → Nat → σ) (K : List Nat) :
    ∀ (S : List Nat) (k : Nat) (st : σ), K.drop k = S →
      (List.range' (k + 1) (S.length - 1)).foldl
        (fun st i => f st i (K.getD (i - 1) 0) (K.getD i 0)) st = pairFold f (k + 1) S st
  | [], k, st, _ => by simp [pairFold]
  | [a], k, st, _ => by simp [pairFold]
  | a :: b :: t, k, st, h => by
    have h1 := getD_of_drop K k a (b :: t) h
    have h2 := getD_of_drop K (k + 1) b t h1.2
    have ih := pairFold_bridge f K (b :: t) (k + 1) (f st (k + 1) a b) h1.2
    simp only [List.length_cons, Nat.add_sub_cancel] at ih ⊢
    rw [List.range'_succ, List.foldl_cons, pairFold, ← ih]
    simp only [Nat.add_sub_cancel, h1.1, h2.1]

/-- The body of the scan depends on `K` through `K[k-1]` and `K[k]` only. -/
theorem ibd2Step_eq (G : genotype_set) (H : conditioning_set) (ind : Nat) (w : window)
    (K : List Nat) :
    ibd2Step G H ind w K = fun st k => ibd2Body G H ind w st k (K.getD (k - 1) 0) (K.getD k 0) :=
  rfl

/-- The scan from any state: it appends the marks, the banned ranges and the queries. -/
theorem pairFold_ibd2Body (G : genotype_set) (H : conditioning_set) (ind : Nat) (w : window) :
    ∀ (K : List Nat) (k : Nat) (st : scan_state),
      pairFold (ibd2Body G H ind w) k K st =
        { toBeRemoved := st.toBeRemoved ++ marks (ibd2Ind G H ind w) k K,
          Kbanned := st.Kbanned ++
            (tags (ibd2Ind G H ind w) K).map (fun j => (j, w.start_locus, w.stop_locus)),
          queried := st.queried ++ tags (diploidInd G) K }
  | [], k, st => by simp [pairFold, marks, tags]
  | [a], k, st => by simp [pairFold, marks, tags]
  | a :: b :: t, k, st => by
    rw [pairFold, pairFold_ibd2Body G H ind w (b :: t) (k + 1)]
    unfold ibd2Body
    rw [marks, tags, tags]
    have c1 : (a / 2 = b / 2 ∧ diploidInd G (a / 2) = true) ↔
        (a / 2 = b / 2 ∧ a / 2 < G.n_ind ∧ G.haploid (a / 2) = false) := by
      simp only [diploidInd, Bool.and_eq_true, decide_eq_true_eq, Bool.not_eq_true']
    have c2 : (a / 2 = b / 2 ∧ ibd2Ind G H ind w (a / 2) = true) ↔
        ((a / 2 = b / 2 ∧ a / 2 < G.n_ind ∧ G.haploid (a / 2) = false) ∧
          H.getMatchHets ind (a / 2) w.start_locus w.stop_locus > MAX_OVERLAP_HETS) := by
      simp only [ibd2Ind, diploidInd, Bool.and_eq_true, decide_eq_true_eq, Bool.not_eq_true']
      tauto
    by_cases h1 : a / 2 = b / 2 ∧ a / 2 < G.n_ind ∧ G.haploid (a / 2) = false
    · by_cases h2 : H.getMatchHets ind (a / 2) w.start_locus w.stop_locus > MAX_OVERLAP_HETS
      · simp only [if_pos h1, if_pos h2, if_pos (c2.2 ⟨h1, h2⟩), if_pos (c1.2 h1)]
        simp
      · have n2 : ¬ (a / 2 = b / 2 ∧ ibd2Ind G H ind w (a / 2) = true) := fun h => h2 (c2.1 h).2
        simp only [if_pos h1, if_neg h2, if_neg n2, if_pos (c1.2 h1)]
        simp
    · have n1 : ¬ (a / 2 = b / 2 ∧ diploidInd G (a / 2) = true) := fun h => h1 (c1.1 h)
      have n2 : ¬ (a / 2 = b / 2 ∧ ibd2Ind G H ind w (a / 2) = true) := fun h => h1 (c2.1 h).1
      simp only [if_neg h1, if_neg n2, if_neg n1]
      simp

/-- The scan of step 3.1 in closed form. -/
theorem ibd2Scan_eq (G : genotype_set) (H : conditioning_set) (ind : Nat) (w : window)
    (K : List Nat) (B : List (Nat × Nat × Nat)) (Q : List Nat) :
    ibd2Scan G H ind w K B Q =
      { toBeRemoved := marks (ibd2Ind G H ind w) 1 K,
        Kbanned := B ++ (tags (ibd2Ind G H ind w) K).map (fun j => (j, w.start_locus, w.stop_locus)),
        queried := Q ++ tags (diploidInd G) K } := by
  unfold ibd2Scan
  rw [ibd2Step_eq]
  have := pairFold_bridge (ibd2Body G H ind w) K K 0
    { toBeRemoved := [], Kbanned := B, queried := Q } rfl
  simp only [Nat.zero_add] at this
  rw [this, pairFold_ibd2Body]
  simp

/-- The loop of step 3.2 from index `k` with `p` marks consumed. -/
theorem rm_bridge (K R : List Nat) :
    ∀ (S : List Nat) (k p : Nat) (acc : List Nat), K.drop k = S →
      ((List.range' k S.length).foldl (removeStep K R) (acc, p)).1 = acc ++ rm k S (R.drop p)
  | [], k, p, acc, _ => by simp [rm]
  | a :: t, k, p, acc, h => by
    have h1 := getD_of_drop K k a t h
    rw [List.length_cons, List.range'_succ, List.foldl_cons]
    have hs : removeStep K R (acc, p) k =
        if p < R.length ∧ R.getD p 0 = k then (acc, p + 1) else (acc ++ [K.getD k 0], p) := rfl
    rw [hs]
    by_cases hp : p < R.length
    · have hd : R.drop p = R.getD p 0 :: R.drop (p + 1) := by
        rw [List.getD_eq_getElem _ _ hp]
        exact List.drop_eq_getElem_cons hp
      by_cases hr : R.getD p 0 = k
      · rw [if_pos ⟨hp, hr⟩, hd, rm, if_pos hr]
        exact rm_bridge K R t (k + 1) (p + 1) acc h1.2
      · rw [if_neg (fun h => hr h.2), hd, rm, if_neg hr, ← hd]
        rw [rm_bridge K R t (k + 1) p (acc ++ [K.getD k 0]) h1.2, h1.1]
        simp
    · rw [if_neg (fun h => hp h.1)]
      have hd : R.drop p = [] := List.drop_eq_nil_of_le (Nat.le_of_not_lt hp)
      rw [rm_bridge K R t (k + 1) p (acc ++ [K.getD k 0]) h1.2, h1.1, hd, rm]
      simp

/-- The loop of step 3.2 in structural form. -/
theorem removeMarked_eq (K R : List Nat) : removeMarked K R = rm 0 K R := by
  unfold removeMarked
  rw [List.range_eq_range']
  have := rm_bridge K R K 0 0 [] rfl
  simpa using this

/-- The marks of a scan that starts at index `k + 1` are at least `k`. -/
theorem marks_ge (c : Nat → Bool) : ∀ (K : List Nat) (k : Nat), ∀ r ∈ marks c (k + 1) K, k ≤ r
  | [], k, r, h => by simp [marks] at h
  | [a], k, r, h => by simp [marks] at h
  | a :: b :: t, k, r, h => by
    rw [marks, List.mem_append] at h
    rcases h with h | h
    · split_ifs at h
      · simp only [Nat.add_sub_cancel, List.mem_cons, List.mem_singleton, List.not_mem_nil,
          or_false] at h
        omega
      · simp at h
    · have := marks_ge c (b :: t) (k + 1) r h
      omega

/-- A head that shares its individual with no later element marks nothing. -/
theorem marks_skip (c : Nat → Bool) (b : Nat) (t : List Nat) (k : Nat)
    (h : ∀ y ∈ t, b / 2 ≠ y / 2) : marks c k (b :: t) = marks c (k + 1) t := by
  cases t with
  | nil => simp [marks]
  | cons y t =>
    have : ¬ (b / 2 = y / 2 ∧ c (b / 2) = true) := fun hh => h y (List.mem_cons_self _ _) hh.1
    rw [marks, if_neg this, List.nil_append]

/-- Without marks nothing is removed. -/
theorem rm_nil : ∀ (K : List Nat) (k : Nat), rm k K [] = K
  | [], k => by simp [rm]
  | a :: t, k => by rw [rm, rm_nil t]

/-- An index below all the marks is kept. -/
theorem rm_of_lt (k a : Nat) (t M : List Nat) (h : ∀ r ∈ M, k < r) :
    rm k (a :: t) M = a :: rm (k + 1) t M := by
  cases M with
  | nil => rw [rm]
  | cons r M =>
    have : r ≠ k := Nat.ne_of_gt (h r (List.mem_cons_self _ _))
    rw [rm, if_neg this]

/-- The first two elements of a strictly ascending list. -/
theorem sorted_cons_cons {a b : Nat} {t : List Nat} (h : (a :: b :: t).Sorted (· < ·)) :
    a < b ∧ (∀ y ∈ t, b < y) ∧ (b :: t).Sorted (· < ·) ∧ t.Sorted (· < ·) := by
  have h1 := List.sorted_cons.1 h
  have h2 := List.sorted_cons.1 h1.2
  exact ⟨h1.1 b (List.mem_cons_self _ _), h2.1, h1.2, h2.2⟩

/-- On a strictly ascending list the removal loop, fed with the marks of the scan, drops
exactly the marked adjacent pairs. -/
theorem rm_marks (c : Nat → Bool) :
    ∀ (K : List Nat) (k : Nat), K.Sorted (· < ·) → rm k K (marks c (k + 1) K) = keep c K
  | [], k, _ => by simp [rm, keep]
  | [a], k, _ => by simp [rm, keep, marks]
  | a :: b :: t, k, h => by
    obtain ⟨hab, hbt, hs1, hs2⟩ := sorted_cons_cons h
    by_cases hc : a / 2 = b / 2 ∧ c (a / 2) = true
    · have hskip : marks c (k + 1 + 1) (b :: t) = marks c (k + 2 + 1) t :=
        marks_skip c b t _ (fun y hy => by have := hbt y hy; omega)
      rw [marks, if_pos hc, keep, if_pos hc, hskip, ← rm_marks c t (k + 2) hs2]
      simp [rm]
    · rw [marks, if_neg hc, keep, if_neg hc, List.nil_append,
        rm_of_lt k a (b :: t) _ (fun r hr => by have := marks_ge c (b :: t) (k + 1) r hr; omega),
        rm_marks c (b :: t) (k + 1) hs1]

/-- On a strictly ascending list, dropping the adjacent pairs that pass `c` is filtering out the
haplotypes of the individuals that have both haplotypes in the list and pass `c`. -/
theorem keep_eq_filter (c : Nat → Bool) :
    ∀ K : List Nat, K.Sorted (· < ·) → keep c K = K.filter (fun x => !pairIn c K x)
  | [], _ => by simp [keep]
  | [a], _ => by
    have : pairIn c [a] a = false := by
      simp only [pairIn, List.mem_singleton, Bool.and_eq_false_imp, Bool.and_eq_true,
        decide_eq_true_eq]
      omega
    simp [keep, List.filter_cons, this]
  | a :: b :: t, h => by
    obtain ⟨hab, hbt, hs1, hs2⟩ := sorted_cons_cons h
    by_cases hc : a / 2 = b / 2 ∧ c (a / 2) = true
    · have ha : pairIn c (a :: b :: t) a = true := by
        simp only [pairIn, List.mem_cons, Bool.and_eq_true, decide_eq_true_eq]
        refine ⟨⟨Or.inl (by omega), Or.inr (Or.inl (by omega))⟩, hc.2⟩
      have hb : pairIn c (a :: b :: t) b = true := by
        simp only [pairIn, List.mem_cons, Bool.and_eq_true, decide_eq_true_eq]
        refine ⟨⟨Or.inl (by omega), Or.inr (Or.inl (by omega))⟩, hc.1 ▸ hc.2⟩
      have ht : ∀ x ∈ t, (!pairIn c (a :: b :: t) x) = !pairIn c t x := by
        intro x hx
        have := hbt x hx
        have e1 : (2 * (x / 2) ∈ a :: b :: t) ↔ 2 * (x / 2) ∈ t := by
          simp only [List.mem_cons]
          constructor
          · rintro (h | h | h)
            · omega
            · omega
            · exact h
          · exact fun h => Or.inr (Or.inr h)
        have e2 : (2 * (x / 2) + 1 ∈ a :: b :: t) ↔ 2 * (x / 2) + 1 ∈ t := by
          simp only [List.mem_cons]
          constructor
          · rintro (h | h | h)
            · omega
            · omega
            · exact h
          · exact fun h => Or.inr (Or.inr h)
        simp only [pairIn, e1, e2]
      rw [keep, if_pos hc, keep_eq_filter c t hs2, List.filter_cons, ha, List.filter_cons, hb]
      simp only [Bool.not_true, Bool.false_eq_true, if_false]
      exact (List.filter_congr ht).symm
    · have ha : pairIn c (a :: b :: t) a = false := by
        by_contra hne
        have hp : pairIn c (a :: b :: t) a = true := by simpa using hne
        simp only [pairIn, List.mem_cons, Bool.and_eq_true, decide_eq_true_eq] at hp
        obtain ⟨⟨h1, h2⟩, h3⟩ := hp
        apply hc
        refine ⟨?_, h3⟩
        have h1' : 2 * (a / 2) = a := by
          rcases h1 with h1 | h1 | h1
          · exact h1
          · omega
          · have := hbt _ h1
            omega
        rcases h2 with h2 | h2 | h2
        · omega
        · omega
        · have := hbt _ h2
          omega
      have ht : ∀ x ∈ b :: t, (!pairIn c (a :: b :: t) x) = !pairIn c (b :: t) x := by
        intro x hx
        have hbx : b ≤ x := by
          rcases List.mem_cons.1 hx with rfl | hx
          · exact le_rfl
          · exact Nat.le_of_lt (hbt x hx)
        by_cases hxa : 2 * (x / 2) = a
        · -- then `x = b = a + 1`, and the pair `(a, b)` does not pass `c`
          have hcx : c (x / 2) = false := by
            by_contra hne
            have : c (x / 2) = true := by simpa using hne
            apply hc
            have e : a / 2 = x / 2 := by omega
            exact ⟨by omega, e ▸ this⟩
          simp [pairIn, hcx]
        · have e1 : (2 * (x / 2) ∈ a :: b :: t) ↔ 2 * (x / 2) ∈ b :: t := by
            rw [List.mem_cons]
            constructor
            · rintro (h | h)
              · omega
              · exact h
            · exact Or.inr
          have e2 : (2 * (x / 2) + 1 ∈ a :: b :: t) ↔ 2 * (x / 2) + 1 ∈ b :: t := by
            rw [List.mem_cons]
            constructor
            · rintro (h | h)
              · omega
              · exact h
            · exact Or.inr
          simp only [pairIn, e1, e2]
      rw [keep, if_neg hc, List.filter_cons, ha]
      simp only [Bool.not_false, if_true]
      rw [List.filter_congr ht, keep_eq_filter c (b :: t) hs1]

/-- The threshold of the code is three quarters. -/
theorem MAX_OVERLAP_HETS_eq : MAX_OVERLAP_HETS = 3 / 4 := by
  unfold MAX_OVERLAP_HETS
  rw [Rat.mk'_eq_divInt, Rat.divInt_eq_div]
  norm_num

/-- On a strictly ascending list the scan finds individual `j` exactly when both its
haplotypes are in the list. -/
theorem mem_tags (c : Nat → Bool) (j : Nat) :
    ∀ K : List Nat, K.Sorted (· < ·) → (j ∈ tags c K ↔ 2 * j ∈ K ∧ 2 * j + 1 ∈ K ∧ c j = true)
  | [], _ => by simp [tags]
  | [a], _ => by
    simp only [tags, List.not_mem_nil, List.mem_singleton, false_iff]
    omega
  | a :: b :: t, h => by
    obtain ⟨hab, hbt, hs1, hs2⟩ := sorted_cons_cons h
    have ih := mem_tags c j (b :: t) hs1
    have hbt' : ∀ y ∈ b :: t, a < y := by
      intro y hy
      rcases List.mem_cons.1 hy with rfl | hy
      · exact hab
      · exact Nat.lt_trans hab (hbt y hy)
    rw [tags, List.mem_append, ih]
    constructor
    · rintro (h1 | ⟨h1, h2, h3⟩)
      · split_ifs at h1 with hc
        · have hj : j = a / 2 := by simpa using h1
          refine ⟨?_, ?_, hj ▸ hc.2⟩
          · exact List.mem_cons.2 (Or.inl (by omega))
          · exact List.mem_cons.2 (Or.inr (List.mem_cons.2 (Or.inl (by omega))))
        · simp at h1
      · exact ⟨List.mem_cons_of_mem _ h1, List.mem_cons_of_mem _ h2, h3⟩
    · rintro ⟨h1, h2, h3⟩
      rcases List.mem_cons.1 h1 with e1 | h1
      · left
        have e2 : 2 * j + 1 = b := by
          rcases List.mem_cons.1 h2 with e | h2
          · omega
          · rcases List.mem_cons.1 h2 with e | h2
            · exact e
            · have := hbt _ h2
              omega
        have hc : a / 2 = b / 2 ∧ c (a / 2) = true := by
          have : a / 2 = j := by omega
          exact ⟨by omega, this ▸ h3⟩
        rw [if_pos hc]
        exact List.mem_singleton.2 (by omega)
      · right
        refine ⟨h1, ?_, h3⟩
        rcases List.mem_cons.1 h2 with e | h2
        · have := hbt' _ h1
          omega
        · exact h2

/-- On a strictly ascending list the scan meets the individuals in increasing order, each
at most once. -/
theorem tags_sorted (c : Nat → Bool) :
    ∀ K : List Nat, K.Sorted (· < ·) → (tags c K).Sorted (· < ·)
  | [], _ => by simp [tags]
  | [a], _ => by simp [tags]
  | a :: b :: t, h => by
    obtain ⟨hab, hbt, hs1, hs2⟩ := sorted_cons_cons h
    have ih := tags_sorted c (b :: t) hs1
    rw [tags]
    split_ifs with hc
    · refine List.sorted_cons.2 ⟨?_, ih⟩
      intro j hj
      have hj' := ((mem_tags c j (b :: t) hs1).1 hj).1
      have : b ≤ 2 * j := by
        rcases List.mem_cons.1 hj' with e | hj'
        · omega
        · exact Nat.le_of_lt (hbt _ hj')
      omega
    · exact ih

/-- The haplotypes dropped by step 3 are those of the flagged individuals. -/
theorem pairIn_ibd2Ind (G : genotype_set) (H : conditioning_set) (ind : Nat) (w : window)
    (K : List Nat) (x : Nat) :
    pairIn (ibd2Ind G H ind w) K x = decide (flagged G H ind w K (x / 2)) := by
  unfold pairIn ibd2Ind diploidInd flagged
  rw [MAX_OVERLAP_HETS_eq]
  rw [Bool.eq_iff_iff]
  simp only [Bool.and_eq_true, decide_eq_true_eq, Bool.not_eq_true']
  tauto

/-- An individual with both haplotypes in the list that passes the tests of the code is a flagged
one. -/
theorem ibd2Ind_iff (G : genotype_set) (H : conditioning_set) (ind : Nat) (w : window)
    (K : List Nat) (j : Nat) :
    (2 * j ∈ K ∧ 2 * j + 1 ∈ K ∧ ibd2Ind G H ind w j = true) ↔ flagged G H ind w K j := by
  unfold ibd2Ind diploidInd flagged
  rw [MAX_OVERLAP_HETS_eq]
  simp only [Bool.and_eq_true, decide_eq_true_eq, Bool.not_eq_true']
  tauto

/-- The individuals banned by the scan of a strictly ascending list are the flagged ones. -/
theorem tags_eq_flaggedInds (G : genotype_set) (H : conditioning_set) (ind : Nat) (w : window)
    (K : List Nat) (h : K.Sorted (· < ·)) :
    tags (ibd2Ind G H ind w) K = flaggedInds G H ind w K ∧
    (flaggedInds G H ind w K).Sorted (· < ·) ∧
    ∀ j, j ∈ flaggedInds G H ind w K ↔ flagged G H ind w K j := by
  have hmem : ∀ j, j ∈ flaggedInds G H ind w K ↔ flagged G H ind w K j := by
    intro j
    unfold flaggedInds
    simp only [List.mem_map, List.mem_filter, decide_eq_true_eq]
    constructor
    · rintro ⟨x, ⟨_, _, hx⟩, rfl⟩
      exact hx
    · intro hj
      refine ⟨2 * j, ⟨hj.1, by omega, ?_⟩, by omega⟩
      have : 2 * j / 2 = j := by omega
      rw [this]
      exact hj
  have hsort : (flaggedInds G H ind w K).Sorted (· < ·) := by
    unfold flaggedInds
    have hf : (K.filter (fun x => decide (x % 2 = 0 ∧ flagged G H ind w K (x / 2)))).Sorted
        (· < ·) := List.Pairwise.filter _ h
    refine (List.pairwise_map.2 ?_)
    refine (List.Pairwise.and_mem.1 hf).imp ?_
    rintro x y ⟨hx, hy, hxy⟩
    have ex := (List.mem_filter.1 hx).2
    have ey := (List.mem_filter.1 hy).2
    simp only [decide_eq_true_eq] at ex ey
    omega
  refine ⟨sorted_ext (tags_sorted _ K h) hsort (fun j => ?_), hsort, hmem⟩
  rw [mem_tags _ j K h, hmem, ibd2Ind_iff]

/-- Step 3.2 on a strictly ascending list, fed with the marks of the scan. -/
theorem ibd2Remove_marks (c : Nat → Bool) (K : List Nat) (h : K.Sorted (· < ·)) :
    ibd2Remove K (marks c 1 K) = K.filter (fun x => !pairIn c K x) := by
  have hk : rm 0 K (marks c 1 K) = K.filter (fun x => !pairIn c K x) := by
    rw [rm_marks c K 0 h, keep_eq_filter c K h]
  unfold ibd2Remove
  split_ifs with hR
  · rw [removeMarked_eq, hk]
    exact sortUnique_of_sorted _ (List.Pairwise.filter _ h)
  · have : marks c 1 K = [] := List.length_eq_zero.1 (by omega)
    rw [← hk, this, rm_nil]

/-- Step 3 on lists that are built one per window by `f`. -/
theorem ibd2Loop_map (G : genotype_set) (H : conditioning_set) (ind : Nat)
    (f : window → List Nat) :
    ∀ (W : List window) (B : List (Nat × Nat × Nat)) (Q : List Nat),
      ibd2Loop G H ind W (W.map f) B Q =
        { Kstates := W.map (fun w => ibd2Remove (f w) (marks (ibd2Ind G H ind w) 1 (f w))),
          Kbanned := B ++ W.flatMap (fun w =>
            (tags (ibd2Ind G H ind w) (f w)).map (fun j => (j, w.start_locus, w.stop_locus))),
          queried := Q ++ W.flatMap (fun w => tags (diploidInd G) (f w)) }
  | [], B, Q => by simp [ibd2Loop]
  | w :: W, B, Q => by
    rw [List.map_cons, ibd2Loop, ibd2Scan_eq]
    simp only
    rw [ibd2Loop_map G H ind f W]
    simp [List.flatMap_cons]

/-! ## The random fallback of step 4 -/

/-- Line 115 is the successor modulo `n_hap`. -/
theorem cursor_step (n x : Nat) (hx : x < n) : (if x + 1 = n then 0 else x + 1) = (x + 1) % n := by
  split_ifs with h
  · rw [h, Nat.mod_self]
  · rw [Nat.mod_eq_of_lt (by omega)]

/-- The draw loop after `m` draws, started inside the ordering. -/
theorem drawFold (H : conditioning_set) (Ordering : List Nat) (ind : Nat) (K : List Nat)
    (c : Nat) (hc : c < H.n_hap) :
    ∀ m : Nat, (List.range m).foldl (drawStep H Ordering ind) (K, c) =
      (K ++ ((List.range m).map (fun i => Ordering.getD ((c + i) % H.n_hap) 0)).filter
        (fun v => decide (v / 2 ≠ ind)), (c + m) % H.n_hap)
  | 0 => by simp [Nat.mod_eq_of_lt hc]
  | m + 1 => by
    rw [List.range_succ, List.foldl_append, drawFold H Ordering ind K c hc m, List.foldl_cons,
      List.foldl_nil, List.map_append, List.filter_append]
    have hlt : (c + m) % H.n_hap < H.n_hap := Nat.mod_lt _ (by omega)
    unfold drawStep
    simp only [cursor_step _ _ hlt, Nat.mod_add_mod, Nat.add_assoc]
    by_cases hv : Ordering.getD ((c + m) % H.n_hap) 0 / 2 = ind
    · have hv' := hv
      rw [List.getD_eq_getElem?_getD] at hv'
      simp [hv']
    · have hv' := hv
      rw [List.getD_eq_getElem?_getD] at hv'
      simp [hv']

/-- Step 4 on a window with fewer than 2 states, started inside the ordering. -/
theorem fallbackWindow_small (H : conditioning_set) (Ordering : List Nat) (ind : Nat)
    (K : List Nat) (c : Nat) (hc : c < H.n_hap) (hK : K.length < 2) :
    fallbackWindow H Ordering ind K c =
      (sortUnique (K ++ acceptedDraws H Ordering ind c), (c + N_RANDOM_HAPS) % H.n_hap) := by
  unfold fallbackWindow
  rw [if_pos hK, drawFold H Ordering ind K c hc]
  rfl

/-- Step 4 leaves a window with at least 2 states and the cursor as they are. -/
theorem fallbackWindow_large (H : conditioning_set) (Ordering : List Nat) (ind : Nat)
    (K : List Nat) (c : Nat) (hK : 2 ≤ K.length) :
    fallbackWindow H Ordering ind K c = (K, c) := by
  unfold fallbackWindow
  rw [if_neg (by omega)]

/-- Step 4 keeps the cursor inside the ordering. -/
theorem fallbackWindow_cursor_lt (H : conditioning_set) (Ordering : List Nat) (ind : Nat)
    (K : List Nat) (c : Nat) (hc : c < H.n_hap) :
    (fallbackWindow H Ordering ind K c).2 < H.n_hap := by
  by_cases hK : K.length < 2
  · rw [fallbackWindow_small H Ordering ind K c hc hK]
    exact Nat.mod_lt _ (by omega)
  · rw [fallbackWindow_large H Ordering ind K c (by omega)]
    exact hc

/-- The first window is reached with the cursor of the entry. -/
theorem cursorAt_zero (H : conditioning_set) (Ordering : List Nat) (ind : Nat)
    (Ks : List (List Nat)) (c : Nat) : cursorAt H Ordering ind Ks c 0 = c := by
  simp [cursorAt, fallbackPass]

/-- The cursor at a later window, seen from the second window on. -/
theorem cursorAt_cons_succ (H : conditioning_set) (Ordering : List Nat) (ind : Nat)
    (K : List Nat) (Ks : List (List Nat)) (c i : Nat) :
    cursorAt H Ordering ind (K :: Ks) c (i + 1) =
      cursorAt H Ordering ind Ks (fallbackWindow H Ordering ind K c).2 i := by
  simp [cursorAt, fallbackPass]

/-- Window `i` of step 4 is processed by `fallbackWindow` with the cursor left by the
windows before it. -/
theorem fallbackPass_getElem? (H : conditioning_set) (Ordering : List Nat) (ind : Nat) :
    ∀ (Ks : List (List Nat)) (c i : Nat),
      (fallbackPass H Ordering ind Ks c).1[i]? =
        (Ks[i]?).map (fun K => (fallbackWindow H Ordering ind K
          (cursorAt H Ordering ind Ks c i)).1)
  | [], c, i => by simp [fallbackPass]
  | K :: Ks, c, 0 => by simp [fallbackPass, cursorAt_zero]
  | K :: Ks, c, i + 1 => by
    rw [cursorAt_cons_succ]
    simp only [fallbackPass, List.getElem?_cons_succ]
    exact fallbackPass_getElem? H Ordering ind Ks _ i

/-- The cursor at the next window is the one left by this window. -/
theorem cursorAt_succ (H : conditioning_set) (Ordering : List Nat) (ind : Nat) :
    ∀ (Ks : List (List Nat)) (c i : Nat) (K : List Nat), Ks[i]? = some K →
      cursorAt H Ordering ind Ks c (i + 1) =
        (fallbackWindow H Ordering ind K (cursorAt H Ordering ind Ks c i)).2
  | [], c, i, K, h => by simp at h
  | K' :: Ks, c, 0, K, h => by
    have : K' = K := by simpa using h
    subst this
    simp [cursorAt, fallbackPass]
  | K' :: Ks, c, i + 1, K, h => by
    rw [cursorAt_cons_succ, cursorAt_cons_succ]
    exact cursorAt_succ H Ordering ind Ks _ i K (by simpa using h)

/-- Every window is reached with the cursor inside the ordering. -/
theorem cursorAt_lt (H : conditioning_set) (Ordering : List Nat) (ind : Nat) :
    ∀ (Ks : List (List Nat)) (c i : Nat), c < H.n_hap → cursorAt H Ordering ind Ks c i < H.n_hap
  | [], c, i, hc => by simpa [cursorAt, fallbackPass] using hc
  | K :: Ks, c, 0, hc => by rw [cursorAt_zero]; exact hc
  | K :: Ks, c, i + 1, hc => by
    rw [cursorAt_cons_succ]
    exact cursorAt_lt H Ordering ind Ks _ i (fallbackWindow_cursor_lt H Ordering ind K c hc)

/-- Step 4 keeps one list per window. -/
theorem fallbackPass_length (H : conditioning_set) (Ordering : List Nat) (ind : Nat) :
    ∀ (Ks : List (List Nat)) (c : Nat), (fallbackPass H Ordering ind Ks c).1.length = Ks.length
  | [], c => by simp [fallbackPass]
  | K :: Ks, c => by simp [fallbackPass, fallbackPass_length H Ordering ind Ks]

/-- The cursor after step 4. -/
theorem fallbackPass_cursor (H : conditioning_set) (Ordering : List Nat) (ind : Nat) :
    ∀ (Ks : List (List Nat)) (c : Nat), c < H.n_hap →
      (fallbackPass H Ordering ind Ks c).2 =
        (c + N_RANDOM_HAPS * Ks.countP (fun K => decide (K.length < 2))) % H.n_hap
  | [], c, hc => by simp [fallbackPass, Nat.mod_eq_of_lt hc]
  | K :: Ks, c, hc => by
    have ih := fallbackPass_cursor H Ordering ind Ks _
      (fallbackWindow_cursor_lt H Ordering ind K c hc)
    simp only [fallbackPass]
    rw [ih]
    by_cases hK : K.length < 2
    · rw [fallbackWindow_small H Ordering ind K c hc hK, List.countP_cons_of_pos _ _ (by simpa using hK)]
      simp only [Nat.mod_add_mod]
      congr 1
      ring
    · rw [fallbackWindow_large H Ordering ind K c (by omega),
        List.countP_cons_of_neg _ _ (by simpa using hK)]

/-- The remainder of a value below `2 * n`. -/
theorem mod_of_lt_two_mul (n x : Nat) (h : x < 2 * n) :
    x % n = if x < n then x else x - n := by
  split_ifs with hx
  · exact Nat.mod_eq_of_lt hx
  · rw [Nat.mod_eq_sub_mod (by omega), Nat.mod_eq_of_lt (by omega)]

/-- A list with two different members has at least 2 entries. -/
theorem two_le_length_of_mem {l : List Nat} {a b : Nat} (ha : a ∈ l) (hb : b ∈ l)
    (hab : a ≠ b) : 2 ≤ l.length := by
  match l, ha, hb with
  | [x], ha, hb =>
    exfalso
    simp only [List.mem_singleton] at ha hb
    omega
  | x :: y :: t, _, _ => simp

/-- Among four distinct haplotypes at least two do not belong to `ind`. -/
theorem two_free (ind v0 v1 v2 v3 : Nat) (h01 : v0 ≠ v1) (h02 : v0 ≠ v2) (h03 : v0 ≠ v3)
    (h12 : v1 ≠ v2) (h13 : v1 ≠ v3) (h23 : v2 ≠ v3) :
    ∃ a b, a ∈ [v0, v1, v2, v3] ∧ b ∈ [v0, v1, v2, v3] ∧ a ≠ b ∧ a / 2 ≠ ind ∧ b / 2 ≠ ind := by
  by_cases h0 : v0 / 2 = ind <;> by_cases h1 : v1 / 2 = ind <;>
    by_cases h2 : v2 / 2 = ind <;> by_cases h3 : v3 / 2 = ind <;>
    first
    | exact ⟨v0, v1, by simp, by simp, h01, h0, h1⟩
    | exact ⟨v0, v2, by simp, by simp, h02, h0, h2⟩
    | exact ⟨v0, v3, by simp, by simp, h03, h0, h3⟩
    | exact ⟨v1, v2, by simp, by simp, h12, h1, h2⟩
    | exact ⟨v1, v3, by simp, by simp, h13, h1, h3⟩
    | exact ⟨v2, v3, by simp, by simp, h23, h2, h3⟩
    | (exfalso; omega)

/-- A duplicate-free vector holds different values at different indices. -/
theorem getD_inj_of_nodup {l : List Nat} (h : l.Nodup) {i j : Nat} (hi : i < l.length)
    (hj : j < l.length) (e : l.getD i 0 = l.getD j 0) : i = j := by
  rw [List.getD_eq_getElem _ _ hi, List.getD_eq_getElem _ _ hj] at e
  exact (List.Nodup.getElem_inj_iff h).1 e

/-- The appended draws: the values drawn that do not belong to the target. -/
theorem mem_acceptedDraws (H : conditioning_set) (Ordering : List Nat) (ind c v : Nat) :
    v ∈ acceptedDraws H Ordering ind c ↔
      (∃ i, i < N_RANDOM_HAPS ∧ Ordering.getD ((c + i) % H.n_hap) 0 = v) ∧ v / 2 ≠ ind := by
  unfold acceptedDraws
  simp only [List.mem_filter, List.mem_map, List.mem_range, decide_eq_true_eq]

/-- A fallback loop started inside a duplicate-free ordering of at least four haplotypes
accepts two distinct haplotypes. -/
theorem acceptedDraws_two (H : conditioning_set) (Ordering : List Nat) (ind c : Nat)
    (hn : 4 ≤ H.n_hap) (hlen : Ordering.length = H.n_hap) (hnd : Ordering.Nodup)
    (hc : c < H.n_hap) :
    ∃ a b, a ∈ acceptedDraws H Ordering ind c ∧ b ∈ acceptedDraws H Ordering ind c ∧ a ≠ b := by
  have hidx : ∀ i, i < 4 → (c + i) % H.n_hap < Ordering.length := fun i _ => by
    rw [hlen]
    exact Nat.mod_lt _ (by omega)
  have hne : ∀ i j, i < 4 → j < 4 → i ≠ j →
      Ordering.getD ((c + i) % H.n_hap) 0 ≠ Ordering.getD ((c + j) % H.n_hap) 0 := by
    intro i j hi hj hij e
    have := getD_inj_of_nodup hnd (hidx i hi) (hidx j hj) e
    rw [mod_of_lt_two_mul _ _ (by omega), mod_of_lt_two_mul _ _ (by omega)] at this
    split_ifs at this <;> omega
  obtain ⟨a, b, ha, hb, hab, ha2, hb2⟩ := two_free ind
    (Ordering.getD ((c + 0) % H.n_hap) 0) (Ordering.getD ((c + 1) % H.n_hap) 0)
    (Ordering.getD ((c + 2) % H.n_hap) 0) (Ordering.getD ((c + 3) % H.n_hap) 0)
    (hne 0 1 (by omega) (by omega) (by omega)) (hne 0 2 (by omega) (by omega) (by omega))
    (hne 0 3 (by omega) (by omega) (by omega)) (hne 1 2 (by omega) (by omega) (by omega))
    (hne 1 3 (by omega) (by omega) (by omega)) (hne 2 3 (by omega) (by omega) (by omega))
  have hmem : ∀ v, v ∈ [Ordering.getD ((c + 0) % H.n_hap) 0, Ordering.getD ((c + 1) % H.n_hap) 0,
      Ordering.getD ((c + 2) % H.n_hap) 0, Ordering.getD ((c + 3) % H.n_hap) 0] →
      ∃ i, i < N_RANDOM_HAPS ∧ Ordering.getD ((c + i) % H.n_hap) 0 = v := by
    intro v hv
    simp only [List.mem_cons, List.mem_singleton, List.not_mem_nil, or_false] at hv
    rcases hv with rfl | rfl | rfl | rfl
    · exact ⟨0, by decide, rfl⟩
    · exact ⟨1, by decide, rfl⟩
    · exact ⟨2, by decide, rfl⟩
    · exact ⟨3, by decide, rfl⟩
  exact ⟨a, b, (mem_acceptedDraws H Ordering ind c a).2 ⟨hmem a ha, ha2⟩,
    (mem_acceptedDraws H Ordering ind c b).2 ⟨hmem b hb, hb2⟩, hab⟩

/-- After step 4 a window has at least 2 states, when the ordering is duplicate-free over at least
four haplotypes. -/
theorem fallbackWindow_two_le (H : conditioning_set) (Ordering : List Nat) (ind c : Nat)
    (K : List Nat) (hn : 4 ≤ H.n_hap) (hlen : Ordering.length = H.n_hap) (hnd : Ordering.Nodup)
    (hc : c < H.n_hap) : 2 ≤ (fallbackWindow H Ordering ind K c).1.length := by
  by_cases hK : K.length < 2
  · rw [fallbackWindow_small H Ordering ind K c hc hK]
    obtain ⟨a, b, ha, hb, hab⟩ := acceptedDraws_two H Ordering ind c hn hlen hnd hc
    exact two_le_length_of_mem
      ((mem_sortUnique a _).2 (List.mem_append_right _ ha))
      ((mem_sortUnique b _).2 (List.mem_append_right _ hb)) hab
  · rw [fallbackWindow_large H Ordering ind K c (by omega)]
    exact Nat.le_of_not_lt hK

/-! ## The passes of `make` put together -/

/-- The list built for a window is strictly ascending. -/
theorem buildWindow_sorted (H : conditioning_set) (ind : Nat) (w : window) :
    (buildWindow H ind w).Sorted (· < ·) :=
  sortUnique_sorted _

/-- Steps 2 and 3 of `make` in closed form. -/
theorem ibd2Pass_build (G : genotype_set) (H : conditioning_set) (ind : Nat) (W : List window) :
    ibd2Pass G H ind W (buildPass H ind W) =
      { Kstates := W.map (fun w => (buildWindow H ind w).filter
          (fun x => decide (¬ flagged G H ind w (buildWindow H ind w) (x / 2)))),
        Kbanned := W.flatMap (fun w => (flaggedInds G H ind w (buildWindow H ind w)).map
          (fun j => (j, w.start_locus, w.stop_locus))),
        queried := W.flatMap (fun w => tags (diploidInd G) (buildWindow H ind w)) } := by
  unfold ibd2Pass buildPass
  rw [ibd2Loop_map]
  simp only [List.nil_append]
  congr 1
  · apply List.map_congr_left
    intro w _
    rw [ibd2Remove_marks _ _ (buildWindow_sorted H ind w)]
    apply List.filter_congr
    intro x _
    rw [pairIn_ibd2Ind]
    simp
  · congr 1
    funext w
    rw [(tags_eq_flaggedInds G H ind w _ (buildWindow_sorted H ind w)).1]

/-- A draw that is appended does not belong to the target. -/
theorem drawFold_mem (H : conditioning_set) (Ordering : List Nat) (ind x : Nat) :
    ∀ (is : List Nat) (st : List Nat × Nat),
      x ∈ (is.foldl (drawStep H Ordering ind) st).1 → x ∈ st.1 ∨ x / 2 ≠ ind
  | [], st, h => Or.inl h
  | i :: is, st, h => by
    rw [List.foldl_cons] at h
    rcases drawFold_mem H Ordering ind x is _ h with h | h
    · unfold drawStep at h
      simp only at h
      split_ifs at h with hv
      · rcases List.mem_append.1 h with h | h
        · exact Or.inl h
        · right
          rw [List.mem_singleton.1 h]
          exact hv
      · exact Or.inl h
    · exact Or.inr h

/-- The draw loop keeps the entries of the list. -/
theorem drawFold_mono (H : conditioning_set) (Ordering : List Nat) (ind x : Nat) :
    ∀ (is : List Nat) (st : List Nat × Nat),
      x ∈ st.1 → x ∈ (is.foldl (drawStep H Ordering ind) st).1
  | [], st, h => h
  | i :: is, st, h => by
    rw [List.foldl_cons]
    apply drawFold_mono H Ordering ind x is
    unfold drawStep
    simp only
    split_ifs
    · exact List.mem_append_left _ h
    · exact h

/-- Step 4 keeps the list of a window strictly ascending. -/
theorem fallbackWindow_sorted (H : conditioning_set) (Ordering : List Nat) (ind : Nat)
    (K : List Nat) (c : Nat) (h : K.Sorted (· < ·)) :
    (fallbackWindow H Ordering ind K c).1.Sorted (· < ·) := by
  unfold fallbackWindow
  split_ifs
  · exact sortUnique_sorted _
  · exact h

/-- An entry after step 4 was there before or does not belong to the target. -/
theorem fallbackWindow_mem (H : conditioning_set) (Ordering : List Nat) (ind : Nat)
    (K : List Nat) (c x : Nat) (h : x ∈ (fallbackWindow H Ordering ind K c).1) :
    x ∈ K ∨ x / 2 ≠ ind := by
  unfold fallbackWindow at h
  split_ifs at h
  · exact drawFold_mem H Ordering ind x _ _ ((mem_sortUnique _ _).1 h)
  · exact Or.inl h

/-- Step 4 keeps the entries of the list. -/
theorem fallbackWindow_mono (H : conditioning_set) (Ordering : List Nat) (ind : Nat)
    (K : List Nat) (c x : Nat) (h : x ∈ K) : x ∈ (fallbackWindow H Ordering ind K c).1 := by
  unfold fallbackWindow
  split_ifs
  · exact (mem_sortUnique _ _).2 (drawFold_mono H Ordering ind x _ _ h)
  · exact h

/-- Step 4 does not shorten the list. -/
theorem fallbackWindow_length (H : conditioning_set) (Ordering : List Nat) (ind : Nat)
    (K : List Nat) (c : Nat) : K.length ≤ (fallbackWindow H Ordering ind K c).1.length := by
  by_cases hK : K.length < 2
  · match K, hK with
    | [], _ => exact Nat.zero_le _
    | [a], _ =>
      exact List.length_pos_of_mem (fallbackWindow_mono H Ordering ind [a] c a
        (List.mem_singleton.2 rfl))
  · rw [fallbackWindow_large H Ordering ind K c (by omega)]

/-- Membership in the single global deduplication of a window. -/
theorem mem_globalDedup (H : conditioning_set) (ind : Nat) (w : window) (x : Nat) :
    x ∈ globalDedup H ind w ↔
      ∃ l, (w.start_locus ≤ l ∧ l ≤ w.stop_locus) ∧ H.sites_pbwt_selection l = true ∧
        ∃ s, s < H.depth ∧ ∃ p, p < 2 ∧ neighbour H s (2 * ind + p) l = (x : Int) := by
  unfold globalDedup lookups
  rw [(List.perm_insertionSort _ _).mem_iff, List.mem_dedup]
  simp only [List.mem_map, List.mem_filter, List.mem_flatMap, List.mem_range, mem_loci,
    List.mem_cons, List.mem_singleton, List.not_mem_nil, or_false, decide_eq_true_eq]
  constructor
  · rintro ⟨c, ⟨⟨l, ⟨hl, hsel⟩, s, hs, hc⟩, h0⟩, rfl⟩
    refine ⟨l, hl, hsel, s, hs, ?_⟩
    rcases hc with rfl | rfl
    · exact ⟨0, by omega, (Int.toNat_of_nonneg h0).symm⟩
    · exact ⟨1, by omega, (Int.toNat_of_nonneg h0).symm⟩
  · rintro ⟨l, hl, hsel, s, hs, p, hp, e⟩
    refine ⟨(x : Int), ⟨⟨l, ⟨hl, hsel⟩, s, hs, ?_⟩, Int.ofNat_nonneg x⟩, Int.toNat_ofNat x⟩
    have hp' : p = 0 ∨ p = 1 := by omega
    rcases hp' with rfl | rfl
    · exact Or.inl e.symm
    · exact Or.inr e.symm

/-- The single global deduplication is strictly ascending. -/
theorem globalDedup_sorted (H : conditioning_set) (ind : Nat) (w : window) :
    (globalDedup H ind w).Sorted (· < ·) := by
  unfold globalDedup
  exact List.Sorted.lt_of_le (List.sorted_insertionSort _ _)
    ((List.perm_insertionSort _ _).nodup_iff.2 (List.nodup_dedup _))

/-- Run-suppression followed by sort and unique is the single global deduplication. -/
theorem buildWindow_eq_globalDedup (H : conditioning_set) (ind : Nat) (w : window) :
    buildWindow H ind w = globalDedup H ind w :=
  sorted_ext (buildWindow_sorted H ind w) (globalDedup_sorted H ind w)
    (fun x => by rw [mem_buildWindow, mem_globalDedup])

/-- The final list of window `i`: step 4 on the list left by step 3, with the cursor at `i`. -/
theorem make_Kstates_getElem? (H : conditioning_set) (G : genotype_set) (W : List window)
    (job : compute_job) (ind i : Nat) :
    (compute_job.make H G W job ind).Kstates[i]? =
      ((ibd2Pass G H ind W (buildPass H ind W)).Kstates[i]?).map (fun K =>
        (fallbackWindow H job.Ordering ind K (cursorAt H job.Ordering ind
          (ibd2Pass G H ind W (buildPass H ind W)).Kstates job.Oiterator i)).1) := by
  unfold compute_job.make
  exact fallbackPass_getElem? H job.Ordering ind _ _ i

/-- The list of window `i` after step 3. -/
theorem ibd2Pass_Kstates_getElem? (G : genotype_set) (H : conditioning_set) (ind : Nat)
    (W : List window) (i : Nat) :
    (ibd2Pass G H ind W (buildPass H ind W)).Kstates[i]? =
      (W[i]?).map (fun w => (buildWindow H ind w).filter
        (fun x => decide (¬ flagged G H ind w (buildWindow H ind w) (x / 2)))) := by
  rw [ibd2Pass_build]
  exact List.getElem?_map _ _ _

/-- Step 3 leaves strictly ascending lists. -/
theorem ibd2Pass_Kstates_sorted (G : genotype_set) (H : conditioning_set) (ind : Nat)
    (W : List window) :
    ∀ K ∈ (ibd2Pass G H ind W (buildPass H ind W)).Kstates, K.Sorted (· < ·) := by
  rw [ibd2Pass_build]
  intro K hK
  obtain ⟨w, _, rfl⟩ := List.mem_map.1 hK
  exact List.Pairwise.filter _ (buildWindow_sorted H ind w)

/-- Step 3 keeps one list per window. -/
theorem ibd2Pass_Kstates_length (G : genotype_set) (H : conditioning_set) (ind : Nat)
    (W : List window) : (ibd2Pass G H ind W (buildPass H ind W)).Kstates.length = W.length := by
  rw [ibd2Pass_build]
  exact List.length_map _ _

/-- `make` returns one list per window. -/
theorem make_Kstates_length (H : conditioning_set) (G : genotype_set) (W : List window)
    (job : compute_job) (ind : Nat) :
    (compute_job.make H G W job ind).Kstates.length = W.length := by
  unfold compute_job.make
  rw [fallbackPass_length]
  exact ibd2Pass_Kstates_length G H ind W


/-- A table that excludes the target builds lists without the haplotypes of the target. -/
theorem not_mem_buildWindow_of_excludes (H : conditioning_set) (ind : Nat) (W : List window)
    (h : tableExcludesTarget H ind W) (w : window) (hw : w ∈ W) :
    2 * ind ∉ buildWindow H ind w ∧ 2 * ind + 1 ∉ buildWindow H ind w := by
  constructor
  · intro hx
    obtain ⟨l, hl, hsel, s, hs, p, hp, e⟩ := (mem_buildWindow H ind w _).1 hx
    exact (h w hw l s p hl.1 hl.2 hsel hs hp).1 e
  · intro hx
    obtain ⟨l, hl, hsel, s, hs, p, hp, e⟩ := (mem_buildWindow H ind w _).1 hx
    exact (h w hw l s p hl.1 hl.2 hsel hs hp).2 e

/-- The IBD2 pass only removes entries. -/
theorem pre_subset_built (H : conditioning_set) (G : genotype_set) (W : List window)
    (ind i : Nat) (built pre : List Nat) (hbuilt : (buildPass H ind W)[i]? = some built)
    (hpre : (ibd2Pass G H ind W (buildPass H ind W)).Kstates[i]? = some pre) :
    ∀ x ∈ pre, x ∈ built := by
  intro x hx
  rw [ibd2Pass_Kstates_getElem?] at hpre
  unfold buildPass at hbuilt
  rw [List.getElem?_map] at hbuilt
  obtain ⟨w, hw, rfl⟩ := Option.map_eq_some'.1 hbuilt
  rw [hw] at hpre
  simp only [Option.map_some', Option.some.injEq] at hpre
  subst hpre
  exact (List.mem_filter.1 hx).1

/-- A haplotype of the target in a final list stood in the list built for that window. -/
theorem target_hap_from_build (H : conditioning_set) (G : genotype_set) (W : List window)
    (job : compute_job) (ind i : Nat) (built post : List Nat)
    (hbuilt : (buildPass H ind W)[i]? = some built)
    (hpost : (compute_job.make H G W job ind).Kstates[i]? = some post) :
    ∀ x ∈ post, x / 2 = ind → x ∈ built := by
  intro x hx hxi
  rw [make_Kstates_getElem?, ibd2Pass_Kstates_getElem?] at hpost
  unfold buildPass at hbuilt
  rw [List.getElem?_map] at hbuilt
  obtain ⟨w, hw, rfl⟩ := Option.map_eq_some'.1 hbuilt
  rw [hw] at hpost
  simp only [Option.map_some', Option.some.injEq] at hpost
  subst hpost
  rcases fallbackWindow_mem H job.Ordering ind _ _ x hx with h | h
  · exact (List.mem_filter.1 h).1
  · exact absurd hxi h

/-- The individuals for which `getMatchHets` is called. -/
theorem mem_queried (H : conditioning_set) (G : genotype_set) (W : List window) (ind j : Nat) :
    j ∈ compute_job.queried H G W ind ↔
      ∃ w ∈ W, 2 * j ∈ buildWindow H ind w ∧ 2 * j + 1 ∈ buildWindow H ind w ∧
        j < G.n_ind ∧ G.haploid j = false := by
  unfold compute_job.queried
  rw [ibd2Pass_build]
  simp only [List.mem_flatMap]
  constructor
  · rintro ⟨w, hw, hj⟩
    have := (mem_tags _ j _ (buildWindow_sorted H ind w)).1 hj
    simp only [diploidInd, Bool.and_eq_true, decide_eq_true_eq, Bool.not_eq_true'] at this
    exact ⟨w, hw, this.1, this.2.1, this.2.2.1, this.2.2.2⟩
  · rintro ⟨w, hw, h0, h1, h2, h3⟩
    refine ⟨w, hw, (mem_tags _ j _ (buildWindow_sorted H ind w)).2 ⟨h0, h1, ?_⟩⟩
    simp only [diploidInd, Bool.and_eq_true, decide_eq_true_eq, Bool.not_eq_true']
    exact ⟨h2, h3⟩

/-- The table of the four-window scenario lists only the haplotypes 4 and 5. -/
theorem scenarioIBD2_excludes : tableExcludesTarget scenarioIBD2 0 scenarioWindows := by
  intro w _ l s p _ _ _ _ _
  simp only [neighbour, scenarioIBD2]
  split_ifs <;> decide

/-! ## Table addresses, adjacency of pairs, the marks of the scan -/

/-- The last two terms of the address stay below the offset of one rank. -/
theorem addr_low_lt (G N h b : Nat) (hh : h < 2 * N) (hb : b < G) :
    h * G + b < G * N * 2 := by
  have h1 : (h + 1) * G ≤ 2 * N * G := Nat.mul_le_mul_right G hh
  have h2 : (h + 1) * G = h * G + G := by ring
  have h3 : 2 * N * G = G * N * 2 := by ring
  omega

/-- A number below `M` added to a multiple of `M` determines both. -/
theorem mixed_radix_inj (M s r s' r' : Nat) (hr : r < M) (hr' : r' < M)
    (e : s * M + r = s' * M + r') : s = s' ∧ r = r' := by
  have hM : 0 < M := by omega
  have e1 : (r + s * M) / M = (r' + s' * M) / M := by
    rw [Nat.add_comm r, Nat.add_comm r', e]
  rw [Nat.add_mul_div_right _ _ hM, Nat.add_mul_div_right _ _ hM, Nat.div_eq_of_lt hr,
    Nat.div_eq_of_lt hr'] at e1
  have hs : s = s' := by omega
  subst hs
  exact ⟨rfl, by omega⟩

/-- The address of an in-range triple is inside the table. -/
theorem addr_lt (H : conditioning_set) (s h b : Nat) (hs : s < H.depth)
    (hh : h < 2 * H.n_ind) (hb : b < H.sites_pbwt_ngroups) :
    addr H s h b < H.depth * 2 * H.n_ind * H.sites_pbwt_ngroups := by
  unfold addr
  have hlow := addr_low_lt H.sites_pbwt_ngroups H.n_ind h b hh hb
  have h1 : (s + 1) * (H.sites_pbwt_ngroups * H.n_ind * 2) ≤
      H.depth * (H.sites_pbwt_ngroups * H.n_ind * 2) := Nat.mul_le_mul_right _ hs
  have h2 : (s + 1) * (H.sites_pbwt_ngroups * H.n_ind * 2) =
      s * (H.sites_pbwt_ngroups * H.n_ind * 2) + H.sites_pbwt_ngroups * H.n_ind * 2 := by ring
  have h3 : H.depth * (H.sites_pbwt_ngroups * H.n_ind * 2) =
      H.depth * 2 * H.n_ind * H.sites_pbwt_ngroups := by ring
  omega

/-- No product or sum of the address wraps around when the table has at most `2 ^ 64`
entries. -/
theorem addr_wrapping_eq (H : conditioning_set) (s h b : Nat) (hs : s < H.depth)
    (hh : h < 2 * H.n_ind) (hb : b < H.sites_pbwt_ngroups)
    (hsize : H.depth * 2 * H.n_ind * H.sites_pbwt_ngroups ≤ 2 ^ 64) :
    addr_wrapping H s h b = addr H s h b := by
  have hlt : addr H s h b < 2 ^ 64 := lt_of_lt_of_le (addr_lt H s h b hs hh hb) hsize
  unfold addr_wrapping
  have e1 : (s * ((H.sites_pbwt_ngroups * H.n_ind * 2) % 2 ^ 64)) % 2 ^ 64 =
      (s * (H.sites_pbwt_ngroups * H.n_ind * 2)) % 2 ^ 64 := by
    rw [Nat.mul_mod, Nat.mod_mod, ← Nat.mul_mod]
  have e2 : ((s * (H.sites_pbwt_ngroups * H.n_ind * 2)) % 2 ^ 64 +
      (h * H.sites_pbwt_ngroups) % 2 ^ 64) % 2 ^ 64 =
      (s * (H.sites_pbwt_ngroups * H.n_ind * 2) + h * H.sites_pbwt_ngroups) % 2 ^ 64 :=
    (Nat.add_mod _ _ _).symm
  have e3 : ((s * (H.sites_pbwt_ngroups * H.n_ind * 2) + h * H.sites_pbwt_ngroups) % 2 ^ 64 +
      b) % 2 ^ 64 =
      (s * (H.sites_pbwt_ngroups * H.n_ind * 2) + h * H.sites_pbwt_ngroups + b) % 2 ^ 64 := by
    rw [Nat.add_mod, Nat.mod_mod, ← Nat.add_mod]
  rw [e1, e2, e3]
  exact Nat.mod_eq_of_lt hlt

/-- In-range triples with the same address are equal. -/
theorem addr_inj (H : conditioning_set) (s h b s' h' b' : Nat)
    (hh : h < 2 * H.n_ind) (hb : b < H.sites_pbwt_ngroups)
    (hh' : h' < 2 * H.n_ind) (hb' : b' < H.sites_pbwt_ngroups)
    (e : addr H s h b = addr H s' h' b') : s = s' ∧ h = h' ∧ b = b' := by
  unfold addr at e
  have hlow := addr_low_lt H.sites_pbwt_ngroups H.n_ind h b hh hb
  have hlow' := addr_low_lt H.sites_pbwt_ngroups H.n_ind h' b' hh' hb'
  have e' : s * (H.sites_pbwt_ngroups * H.n_ind * 2) + (h * H.sites_pbwt_ngroups + b) =
      s' * (H.sites_pbwt_ngroups * H.n_ind * 2) + (h' * H.sites_pbwt_ngroups + b') := by
    omega
  obtain ⟨hs, hr⟩ := mixed_radix_inj _ s _ s' _ hlow hlow' e'
  obtain ⟨hh2, hb2⟩ := mixed_radix_inj _ h b h' b' hb hb' hr
  exact ⟨hs, hh2, hb2⟩

/-- In a strictly ascending list the two haplotypes of an individual, when both are present,
stand next to each other. -/
theorem adjacent_of_sorted (j : Nat) : ∀ K : List Nat, K.Sorted (· < ·) → 2 * j ∈ K →
    2 * j + 1 ∈ K → ∃ k, K[k]? = some (2 * j) ∧ K[k + 1]? = some (2 * j + 1)
  | [], _, h, _ => by simp at h
  | [a], _, h0, h1 => by
    simp only [List.mem_singleton] at h0 h1
    omega
  | a :: b :: t, h, h0, h1 => by
    obtain ⟨hab, hbt, hs1, _⟩ := sorted_cons_cons h
    by_cases ha : a = 2 * j
    · refine ⟨0, by simp [ha], ?_⟩
      have hb : b = 2 * j + 1 := by
        rcases List.mem_cons.1 h1 with e | h1
        · omega
        · rcases List.mem_cons.1 h1 with e | h1
          · exact e.symm
          · have := hbt _ h1
            omega
      simp [hb]
    · have h0' : 2 * j ∈ b :: t := by
        rcases List.mem_cons.1 h0 with e | h0
        · exact absurd e.symm ha
        · exact h0
      have hlt : a < 2 * j := by
        rcases List.mem_cons.1 h0' with e | h0'
        · omega
        · have := hbt _ h0'
          omega
      have h1' : 2 * j + 1 ∈ b :: t := by
        rcases List.mem_cons.1 h1 with e | h1
        · omega
        · exact h1
      obtain ⟨k, hk0, hk1⟩ := adjacent_of_sorted j (b :: t) hs1 h0' h1'
      exact ⟨k + 1, by simpa using hk0, by simpa using hk1⟩

/-- The marks of the scan of a strictly ascending list are strictly increasing. -/
theorem marks_sorted (c : Nat → Bool) :
    ∀ (K : List Nat) (k : Nat), K.Sorted (· < ·) → (marks c (k + 1) K).Sorted (· < ·)
  | [], k, _ => by simp [marks]
  | [a], k, _ => by simp [marks]
  | a :: b :: t, k, h => by
    obtain ⟨hab, hbt, hs1, hs2⟩ := sorted_cons_cons h
    rw [marks]
    split_ifs with hc
    · have hskip : marks c (k + 1 + 1) (b :: t) = marks c (k + 2 + 1) t :=
        marks_skip c b t _ (fun y hy => by have := hbt y hy; omega)
      rw [hskip]
      have ih := marks_sorted c t (k + 2) hs2
      have hge := marks_ge c t (k + 2)
      simp only [Nat.add_sub_cancel, List.cons_append, List.nil_append]
      refine List.sorted_cons.2 ⟨?_, List.sorted_cons.2 ⟨?_, ih⟩⟩
      · intro r hr
        rcases List.mem_cons.1 hr with e | hr
        · omega
        · have := hge r hr
          omega
      · intro r hr
        have := hge r hr
        omega
    · rw [List.nil_append]
      exact marks_sorted c (b :: t) (k + 1) hs1

/-- The marks of the scan are positions of the list. -/
theorem marks_lt (c : Nat → Bool) :
    ∀ (K : List Nat) (k : Nat), ∀ r ∈ marks c (k + 1) K, r < k + K.length
  | [], k, r, h => by simp [marks] at h
  | [a], k, r, h => by simp [marks] at h
  | a :: b :: t, k, r, h => by
    rw [marks, List.mem_append] at h
    simp only [List.length_cons]
    rcases h with h | h
    · split_ifs at h
      · simp only [Nat.add_sub_cancel, List.mem_cons, List.mem_singleton, List.not_mem_nil,
          or_false] at h
        omega
      · simp at h
    · have := marks_lt c (b :: t) (k + 1) r h
      simp only [List.length_cons] at this
      omega

/-- On a strictly ascending list the entries kept and the marks add up to the length. -/
theorem keep_length (c : Nat → Bool) :
    ∀ (K : List Nat) (k : Nat), K.Sorted (· < ·) →
      (keep c K).length + (marks c (k + 1) K).length = K.length
  | [], k, _ => by simp [keep, marks]
  | [a], k, _ => by simp [keep, marks]
  | a :: b :: t, k, h => by
    obtain ⟨hab, hbt, hs1, hs2⟩ := sorted_cons_cons h
    rw [marks, keep]
    split_ifs with hc
    · have hskip : marks c (k + 1 + 1) (b :: t) = marks c (k + 2 + 1) t :=
        marks_skip c b t _ (fun y hy => by have := hbt y hy; omega)
      rw [hskip]
      have ih := keep_length c t (k + 2) hs2
      simp only [List.length_append, List.length_cons, List.length_nil]
      omega
    · have ih := keep_length c (b :: t) (k + 1) hs1
      simp only [List.length_append, List.length_cons, List.length_nil] at ih ⊢
      omega

/-- With strictly increasing marks, none below `k`, the loop of step 3.2 drops exactly the
entries whose position is marked. -/
theorem rm_eq_filter : ∀ (S : List Nat) (k : Nat) (R : List Nat), R.Sorted (· < ·) →
    (∀ r ∈ R, k ≤ r) →
    rm k S R = ((S.enumFrom k).filter (fun p => decide (p.1 ∉ R))).map Prod.snd
  | [], k, R, _, _ => by simp [rm]
  | a :: t, k, [], _, _ => by
    rw [rm_nil]
    simp [List.enumFrom_map_snd]
  | a :: t, k, r :: R, hs, hge => by
    have hs' := List.sorted_cons.1 hs
    rw [rm, List.enumFrom_cons, List.filter_cons]
    by_cases hr : r = k
    · subst hr
      have ih := rm_eq_filter t (r + 1) R hs'.2 (fun x hx => hs'.1 x hx)
      have hcong : ∀ p ∈ t.enumFrom (r + 1),
          decide (p.1 ∉ r :: R) = decide (p.1 ∉ R) := by
        intro p hp
        have hp1 : r + 1 ≤ p.1 := by
          obtain ⟨i, v⟩ := p
          exact (List.mem_enumFrom hp).1
        have : p.1 ≠ r := by omega
        simp [this]
      rw [if_pos rfl, ih, List.filter_congr hcong]
      simp
    · have hk : k < r := by
        have := hge r (List.mem_cons_self _ _)
        omega
      have ih := rm_eq_filter t (k + 1) (r :: R) hs (fun x hx => by
        rcases List.mem_cons.1 hx with e | hx
        · omega
        · have := hs'.1 x hx
          omega)
      have hnot : k ∉ r :: R := by
        intro hmem
        rcases List.mem_cons.1 hmem with e | hmem
        · omega
        · have := hs'.1 k hmem
          omega
      rw [if_neg hr, ih]
      simp [hnot]

/-- The scan of a strictly ascending list queries every diploid individual of `G` that has
both haplotypes in the list, and bans it when its overlap exceeds the threshold. -/
theorem scan_finds_pair (G : genotype_set) (H : conditioning_set) (ind : Nat) (w : window)
    (K : List Nat) (B : List (Nat × Nat × Nat)) (Q : List Nat) (j : Nat)
    (hK : K.Sorted (· < ·)) (h0 : 2 * j ∈ K) (h1 : 2 * j + 1 ∈ K) (hn : j < G.n_ind)
    (hh : G.haploid j = false) :
    j ∈ (ibd2Scan G H ind w K B Q).queried ∧
    (H.getMatchHets ind j w.start_locus w.stop_locus > MAX_OVERLAP_HETS →
      (j, w.start_locus, w.stop_locus) ∈ (ibd2Scan G H ind w K B Q).Kbanned) := by
  rw [ibd2Scan_eq]
  have hd : diploidInd G j = true := by
    simp only [diploidInd, Bool.and_eq_true, decide_eq_true_eq, Bool.not_eq_true']
    exact ⟨hn, hh⟩
  refine ⟨List.mem_append_right _ ((mem_tags _ j K hK).2 ⟨h0, h1, hd⟩), fun ho => ?_⟩
  refine List.mem_append_right _ (List.mem_map.2 ⟨j, (mem_tags _ j K hK).2 ⟨h0, h1, ?_⟩, rfl⟩)
  simp only [ibd2Ind, hd, Bool.true_and, decide_eq_true_eq]
  exact ho

/-- When every entry of `Ordering` belongs to the target, a draw appends nothing and keeps
the cursor inside the ordering. -/
theorem drawStep_all_target (H : conditioning_set) (Ordering : List Nat) (ind : Nat)
    (hall : ∀ v ∈ Ordering, v / 2 = ind) (hlen : Ordering.length = H.n_hap)
    (st : List Nat × Nat) (i : Nat) (hc : st.2 < H.n_hap) :
    (drawStep H Ordering ind st i).1 = st.1 ∧ (drawStep H Ordering ind st i).2 < H.n_hap := by
  have hc' : st.2 < Ordering.length := by omega
  have hm : Ordering.getD st.2 0 / 2 = ind := by
    rw [List.getD_eq_getElem _ _ hc']
    exact hall _ (List.getElem_mem _)
  refine ⟨?_, ?_⟩
  · show (if Ordering.getD st.2 0 / 2 ≠ ind then st.1 ++ [Ordering.getD st.2 0] else st.1) = st.1
    rw [if_neg (not_not.2 hm)]
  · show (if st.2 + 1 = H.n_hap then 0 else st.2 + 1) < H.n_hap
    split <;> omega

/-- The draws of a window append nothing when every entry of `Ordering` belongs to the
target. -/
theorem drawFold_all_target (H : conditioning_set) (Ordering : List Nat) (ind : Nat)
    (hall : ∀ v ∈ Ordering, v / 2 = ind) (hlen : Ordering.length = H.n_hap) :
    ∀ (l : List Nat) (st : List Nat × Nat), st.2 < H.n_hap →
      (l.foldl (drawStep H Ordering ind) st).1 = st.1 ∧
      (l.foldl (drawStep H Ordering ind) st).2 < H.n_hap
  | [], _, hc => ⟨rfl, hc⟩
  | i :: l, st, hc => by
    rw [List.foldl_cons]
    have h1 := drawStep_all_target H Ordering ind hall hlen st i hc
    have h2 := drawFold_all_target H Ordering ind hall hlen l _ h1.2
    exact ⟨h2.1.trans h1.1, h2.2⟩

/-- Step 4 changes no list when every entry of `Ordering` belongs to the target. -/
theorem fallbackPass_all_target (H : conditioning_set) (Ordering : List Nat) (ind : Nat)
    (hall : ∀ v ∈ Ordering, v / 2 = ind) (hlen : Ordering.length = H.n_hap) :
    ∀ (Ks : List (List Nat)) (c : Nat), (∀ K ∈ Ks, K.Sorted (· < ·)) → c < H.n_hap →
      (fallbackPass H Ordering ind Ks c).1 = Ks
  | [], _, _, _ => rfl
  | K :: Ks, c, hs, hc => by
    have hK : K.Sorted (· < ·) := hs K (List.mem_cons_self _ _)
    have hw : (fallbackWindow H Ordering ind K c).1 = K ∧
        (fallbackWindow H Ordering ind K c).2 < H.n_hap := by
      unfold fallbackWindow
      split
      · have h := drawFold_all_target H Ordering ind hall hlen (List.range N_RANDOM_HAPS)
          (K, c) hc
        refine ⟨?_, h.2⟩
        show sortUnique _ = K
        rw [h.1]
        exact sortUnique_of_sorted K hK
      · exact ⟨rfl, hc⟩
    have ih := fallbackPass_all_target H Ordering ind hall hlen Ks _
      (fun K' hK' => hs K' (List.mem_cons_of_mem _ hK')) hw.2
    show (fallbackWindow H Ordering ind K c).1 ::
      (fallbackPass H Ordering ind Ks (fallbackWindow H Ordering ind K c).2).1 = K :: Ks
    rw [hw.1, ih]

/-- `make` leaves `Ordering` as it is. -/
theorem make_Ordering (H : conditioning_set) (G : genotype_set) (W : List window)
    (job : compute_job) (ind : Nat) : (compute_job.make H G W job ind).Ordering = job.Ordering :=
  rfl

/-- `make` keeps the cursor inside the ordering. -/
theorem make_Oiterator_lt (H : conditioning_set) (G : genotype_set) (W : List window)
    (job : compute_job) (ind : Nat) (hcur : job.Oiterator < H.n_hap) :
    (compute_job.make H G W job ind).Oiterator < H.n_hap := by
  have h : (compute_job.make H G W job ind).Oiterator =
      (fallbackPass H job.Ordering ind (ibd2Pass G H ind W (buildPass H ind W)).Kstates
        job.Oiterator).2 := rfl
  rw [h, fallbackPass_cursor H job.Ordering ind _ _ hcur]
  exact Nat.mod_lt _ (by omega)

/-- The state of a job after a sequence of calls of `make`, each with its target and its
windows. -/
theorem calls_invariant (H : conditioning_set) (G : genotype_set) (hn : 1 ≤ H.n_hap) :
    ∀ (calls : List (Nat × List window)) (job : compute_job),
      job.Ordering = List.range H.n_hap → job.Oiterator < H.n_hap →
      (calls.foldl (fun job c => compute_job.make H G c.2 job c.1) job).Ordering =
        List.range H.n_hap ∧
      (calls.foldl (fun job c => compute_job.make H G c.2 job c.1) job).Oiterator < H.n_hap
  | [], job, ho, hc => ⟨ho, hc⟩
  | c :: calls, job, ho, hc => by
    rw [List.foldl_cons]
    exact calls_invariant H G hn calls _ ((make_Ordering H G c.2 job c.1).trans ho)
      (make_Oiterator_lt H G c.2 job c.1 hc)

/-! ## Claims on `compute_job::make` -/

/-- C1: at the exit of each of the three passes of `compute_job::make` (build, IBD2 filter,
fallback) there is one list per window, and every `Kstates[w]` is strictly ascending in
haplotype id, that is sorted without duplicates; the exit of the fallback pass is the state
in which `make` returns. -/
theorem C1_Kstates_strictly_ascending (H : conditioning_set) (G : genotype_set)
    (W : List window) (job : compute_job) (ind : Nat) :
    ((buildPass H ind W).length = W.length ∧
      ∀ K ∈ buildPass H ind W, K.Sorted (· < ·)) ∧
    ((ibd2Pass G H ind W (buildPass H ind W)).Kstates.length = W.length ∧
      ∀ K ∈ (ibd2Pass G H ind W (buildPass H ind W)).Kstates, K.Sorted (· < ·)) ∧
    ((compute_job.make H G W job ind).Kstates.length = W.length ∧
      ∀ K ∈ (compute_job.make H G W job ind).Kstates, K.Sorted (· < ·)) := by
  refine ⟨⟨List.length_map _ _, ?_⟩,
    ⟨ibd2Pass_Kstates_length G H ind W, ibd2Pass_Kstates_sorted G H ind W⟩,
    ⟨make_Kstates_length H G W job ind, ?_⟩⟩
  · intro K hK
    obtain ⟨w, _, rfl⟩ := List.mem_map.1 hK
    exact buildWindow_sorted H ind w
  · intro K hK
    obtain ⟨i, hi⟩ := List.mem_iff_getElem?.1 hK
    rw [make_Kstates_getElem?] at hi
    obtain ⟨pre, hpre, rfl⟩ := Option.map_eq_some'.1 hi
    exact fallbackWindow_sorted H job.Ordering ind pre _
      (ibd2Pass_Kstates_sorted G H ind W pre (List.mem_iff_getElem?.2 ⟨i, hpre⟩))

/-- C2: the build pass of `compute_job::make` (run-suppression per rank and parity, then
sort and unique) gives every window the list of a single global deduplication of its
lookups: haplotype `x` is in the list of window `w` iff `x` (a non-negative value) is the
table entry of some rank `s < depth` and some haplotype `2*ind+p`, `p < 2`, of the target at
some selected site `l` of `[start_locus, stop_locus]`.  With the lookups 5, 5, 7, -1 for the
ranks 0 to 3 at the only site the list is `[5, 7]`. -/
theorem C2_build_is_global_dedup (H : conditioning_set) (ind : Nat) (W : List window) :
    buildPass H ind W = W.map (globalDedup H ind) ∧
    List.Forall₂ (fun w K => ∀ x : Nat, x ∈ K ↔
      ∃ l, (w.start_locus ≤ l ∧ l ≤ w.stop_locus) ∧ H.sites_pbwt_selection l = true ∧
        ∃ s, s < H.depth ∧ ∃ p, p < 2 ∧ neighbour H s (2 * ind + p) l = (x : Int))
      W (buildPass H ind W) ∧
    (List.range 4).map (fun s => neighbour scenarioDedup s 0 0) = [5, 5, 7, -1] ∧
    buildPass scenarioDedup 0 [⟨0, 0⟩] = [[5, 7]] := by
  refine ⟨?_, ?_, by decide, by decide⟩
  · unfold buildPass
    exact List.map_congr_left (fun w _ => buildWindow_eq_globalDedup H ind w)
  · unfold buildPass
    rw [List.forall₂_map_right_iff, List.forall₂_same]
    exact fun w _ x => mem_buildWindow H ind w x

set_option maxRecDepth 100000 in
/-- C3 (as amended): the fallback of `compute_job::make` never adds a haplotype of the
target: a haplotype of the target in a final `Kstates[w]` was in the list of `w` before the
fallback, hence in the list collected from the neighbour table for `w` (target 9 with an
empty list before the fallback ends with the haplotypes 0 to 17, without 18 and 19).  If the
table does not list the target's own haplotypes among the neighbours looked up for the
target, no final `Kstates[w]` contains `2*ind` or `2*ind+1`. -/
theorem C3_self_exclusion_given_table (H : conditioning_set) (G : genotype_set)
    (W : List window) (job : compute_job) (ind : Nat) :
    (∀ (i : Nat) (pre post : List Nat),
      (ibd2Pass G H ind W (buildPass H ind W)).Kstates[i]? = some pre →
      (compute_job.make H G W job ind).Kstates[i]? = some post →
      ∀ x ∈ post, x / 2 = ind → x ∈ pre) ∧
    (∀ (i : Nat) (built pre : List Nat), (buildPass H ind W)[i]? = some built →
      (ibd2Pass G H ind W (buildPass H ind W)).Kstates[i]? = some pre →
      ∀ x ∈ pre, x ∈ built) ∧
    (tableExcludesTarget H ind W →
      ∀ K ∈ (compute_job.make H G W job ind).Kstates, 2 * ind ∉ K ∧ 2 * ind + 1 ∉ K) ∧
    (buildPass scenarioEmpty 9 [⟨0, 0⟩] = [[]] ∧
      (compute_job.make scenarioEmpty (diploids 10) [⟨0, 0⟩]
        { Kstates := [], Kbanned := [], Ordering := List.range 20, Oiterator := 0 } 9).Kstates =
        [[0, 1, 2, 3, 4, 5, 6, 7, 8, 9, 10, 11, 12, 13, 14, 15, 16, 17]]) := by
  refine ⟨fun i pre post hpre hpost x hx hxi => ?_, fun i built pre hb hpre x hx => ?_,
    fun hex K hK => ?_, by decide, by decide⟩
  · rw [make_Kstates_getElem?, hpre] at hpost
    simp only [Option.map_some', Option.some.injEq] at hpost
    subst hpost
    rcases fallbackWindow_mem H job.Ordering ind pre _ x hx with h | h
    · exact h
    · exact absurd hxi h
  · exact pre_subset_built H G W ind i built pre hb hpre x hx
  · obtain ⟨i, hi⟩ := List.mem_iff_getElem?.1 hK
    have hlen : i < (compute_job.make H G W job ind).Kstates.length := by
      by_contra hge
      rw [List.getElem?_eq_none (Nat.le_of_not_lt hge)] at hi
      exact Option.noConfusion hi
    rw [make_Kstates_length] at hlen
    have hb : (buildPass H ind W)[i]? = some (buildWindow H ind W[i]) := by
      unfold buildPass
      rw [List.getElem?_map, List.getElem?_eq_getElem hlen]
      rfl
    have hno := not_mem_buildWindow_of_excludes H ind W hex W[i] (List.getElem_mem hlen)
    have key := target_hap_from_build H G W job ind i _ K hb hi
    exact ⟨fun h => hno.1 (key _ h (by omega)), fun h => hno.2 (key _ h (by omega))⟩

/-- C3 (counterexample to the claim as stated): with a neighbour table that lists haplotype 1
as the neighbour of haplotype 0 of target 0, `make` returns `Kstates[0] = [1, 5]`, which
contains the target's haplotype `2*0+1`. -/
theorem C3_counterexample :
    (compute_job.make scenarioSibling (diploids 3) [⟨0, 0⟩] freshJob 0).Kstates = [[1, 5]] ∧
    ¬ (∀ K ∈ (compute_job.make scenarioSibling (diploids 3) [⟨0, 0⟩] freshJob 0).Kstates,
        2 * 0 ∉ K ∧ 2 * 0 + 1 ∉ K) := by
  decide

set_option maxRecDepth 100000 in
/-- C3 (witness): in the four-window scenario the table lists only the haplotypes 4 and 5 for
target 0, and no final list contains haplotype 0 or 1. -/
theorem C3_witness :
    tableExcludesTarget scenarioIBD2 0 scenarioWindows ∧
    (compute_job.make scenarioIBD2 (diploids 3) scenarioWindows freshJob 0).Kstates =
      [[2, 3, 4, 5], [2, 3, 4, 5], [2, 3, 4, 5], [2, 3, 4, 5]] ∧
    ∀ K ∈ (compute_job.make scenarioIBD2 (diploids 3) scenarioWindows freshJob 0).Kstates,
      2 * 0 ∉ K ∧ 2 * 0 + 1 ∉ K :=
  ⟨scenarioIBD2_excludes, by decide,
    (C3_self_exclusion_given_table scenarioIBD2 (diploids 3) scenarioWindows freshJob 0).2.2.1
      scenarioIBD2_excludes⟩

/-- C4: the IBD2 pass of `compute_job::make` leaves, for every window `w`, the list built
for `w` (`buildWindow H ind w`) in the same order without the haplotypes of the flagged
individuals and with nothing else removed, where individual `j` is flagged iff `2j` and `2j+1` are both in the list built
for `w`, `j < G.n_ind`, `j` is not haploid and `getMatchHets(ind, j, start_locus, stop_locus)`
is strictly above `0.75` (an overlap of exactly `0.75` flags nobody); of a same-individual
pair present before the pass either both haplotypes are removed or none. -/
theorem C4_ibd2_removal_exact (G : genotype_set) (H : conditioning_set) (ind : Nat)
    (W : List window) :
    buildPass H ind W = W.map (buildWindow H ind) ∧
    (ibd2Pass G H ind W (buildPass H ind W)).Kstates =
      W.map (fun w => (buildWindow H ind w).filter
        (fun h => decide (¬ flagged G H ind w (buildWindow H ind w) (h / 2)))) ∧
    (∀ (w : window) (K : List Nat) (j : Nat), flagged G H ind w K j ↔
      (2 * j ∈ K ∧ 2 * j + 1 ∈ K ∧ j < G.n_ind ∧ G.haploid j = false ∧
        H.getMatchHets ind j w.start_locus w.stop_locus > 3 / 4)) ∧
    MAX_OVERLAP_HETS = 3 / 4 ∧
    (∀ (w : window) (K : List Nat) (j : Nat),
      H.getMatchHets ind j w.start_locus w.stop_locus = 3 / 4 → ¬ flagged G H ind w K j) ∧
    List.Forall₂ (fun pre post => ∀ j, 2 * j ∈ pre → 2 * j + 1 ∈ pre →
        (2 * j ∈ post ↔ 2 * j + 1 ∈ post))
      (buildPass H ind W) (ibd2Pass G H ind W (buildPass H ind W)).Kstates := by
  refine ⟨rfl, ?_, fun _ _ _ => Iff.rfl, MAX_OVERLAP_HETS_eq, ?_, ?_⟩
  · rw [ibd2Pass_build]
  · intro w K j hj hf
    have := hf.2.2.2.2
    rw [hj] at this
    exact lt_irrefl _ this
  · rw [ibd2Pass_build]
    unfold buildPass
    simp only
    rw [List.forall₂_map_left_iff, List.forall₂_map_right_iff, List.forall₂_same]
    intro w _ j h0 h1
    have e0 : 2 * j / 2 = j := by omega
    have e1 : (2 * j + 1) / 2 = j := by omega
    simp only [List.mem_filter, decide_eq_true_eq, e0, e1, h0, h1, true_and]

/-- C5: after `compute_job::make`, `Kbanned` is the list of the entries
`(j, start_locus(w), stop_locus(w))`, window after window and, within a window, by increasing
individual `j`, one entry for every individual `j` flagged in window `w` (on the list
`buildWindow H ind w` built for it) and no other entry;
every haplotype that the IBD2 pass removes from window `w` belongs to an individual recorded
in `Kbanned` with the range of `w`.  With the haplotypes 4 and 5 of individual 2 in window 3
and an overlap of 0.82, both are removed and `Kbanned` is `[(2, 3, 3)]`. -/
theorem C5_Kbanned_exact (H : conditioning_set) (G : genotype_set) (W : List window)
    (job : compute_job) (ind : Nat) :
    buildPass H ind W = W.map (buildWindow H ind) ∧
    (compute_job.make H G W job ind).Kbanned =
      W.flatMap (fun w => (flaggedInds G H ind w (buildWindow H ind w)).map
        (fun j => (j, w.start_locus, w.stop_locus))) ∧
    (∀ w : window, (flaggedInds G H ind w (buildWindow H ind w)).Sorted (· < ·) ∧
      ∀ j, j ∈ flaggedInds G H ind w (buildWindow H ind w) ↔
        flagged G H ind w (buildWindow H ind w) j) ∧
    (∀ (i : Nat) (w : window) (pre post : List Nat), W[i]? = some w →
      (buildPass H ind W)[i]? = some pre →
      (ibd2Pass G H ind W (buildPass H ind W)).Kstates[i]? = some post →
      ∀ h ∈ pre, h ∉ post →
        (h / 2, w.start_locus, w.stop_locus) ∈ (compute_job.make H G W job ind).Kbanned) ∧
    (buildPass scenarioIBD2 0 scenarioWindows = [[], [], [], [4, 5]] ∧
      scenarioIBD2.getMatchHets 0 2 3 3 * 100 = 82 ∧
      (ibd2Pass (diploids 3) scenarioIBD2 0 scenarioWindows
        (buildPass scenarioIBD2 0 scenarioWindows)).Kstates = [[], [], [], []] ∧
      (compute_job.make scenarioIBD2 (diploids 3) scenarioWindows freshJob 0).Kbanned =
        [(2, 3, 3)]) := by
  have hK : (compute_job.make H G W job ind).Kbanned =
      W.flatMap (fun w => (flaggedInds G H ind w (buildWindow H ind w)).map
        (fun j => (j, w.start_locus, w.stop_locus))) := by
    unfold compute_job.make
    simp only
    rw [ibd2Pass_build]
  refine ⟨rfl, hK, fun w => (tags_eq_flaggedInds G H ind w _ (buildWindow_sorted H ind w)).2, ?_,
    by decide, ?_, by decide, by decide⟩
  · intro i w pre post hw hpre hpost h hh hnot
    rw [ibd2Pass_Kstates_getElem?, hw] at hpost
    unfold buildPass at hpre
    rw [List.getElem?_map, hw] at hpre
    simp only [Option.map_some', Option.some.injEq] at hpre hpost
    subst hpre hpost
    have hf : flagged G H ind w (buildWindow H ind w) (h / 2) := by
      by_contra hn
      exact hnot (List.mem_filter.2 ⟨hh, by simpa using hn⟩)
    rw [hK]
    refine List.mem_flatMap.2 ⟨w, List.mem_iff_getElem?.2 ⟨i, hw⟩, List.mem_map.2 ⟨h / 2, ?_, rfl⟩⟩
    exact ((tags_eq_flaggedInds G H ind w _ (buildWindow_sorted H ind w)).2.2 _).2 hf
  · unfold scenarioIBD2
    simp only
    rw [Rat.mk'_eq_divInt, Rat.divInt_eq_div]
    norm_num

/-- C5 (witness): window 3 of the four-window scenario; haplotype 4 is removed and its
individual is recorded with the range of window 3. -/
theorem C5_witness :
    (2, 3, 3) ∈ (compute_job.make scenarioIBD2 (diploids 3) scenarioWindows freshJob 0).Kbanned :=
  (C5_Kbanned_exact scenarioIBD2 (diploids 3) scenarioWindows freshJob 0).2.2.2.1 3 ⟨3, 3⟩ [4, 5] []
    (by decide) (by decide) (by decide) 4 (by decide) (by decide)

/-- C6 (as amended): the IBD2 guard of `compute_job::make` does not compare the individual
of a pair with the target: `getMatchHets` is queried for individual `j` exactly when, in some
window, both `2j` and `2j+1` are in the list built for the window, `j < G.n_ind` and `j` is
not haploid, the target included.  If the neighbour table does not list the target's own
haplotypes among the neighbours looked up for the target, the statistic is never queried for
the target and `Kbanned` never names it. -/
theorem C6_target_pair_guard (H : conditioning_set) (G : genotype_set) (W : List window)
    (job : compute_job) (ind : Nat) :
    (∀ j, j ∈ compute_job.queried H G W ind ↔
      ∃ w ∈ W, 2 * j ∈ buildWindow H ind w ∧ 2 * j + 1 ∈ buildWindow H ind w ∧
        j < G.n_ind ∧ G.haploid j = false) ∧
    (tableExcludesTarget H ind W →
      ind ∉ compute_job.queried H G W ind ∧
      ∀ e ∈ (compute_job.make H G W job ind).Kbanned, e.1 ≠ ind) := by
  refine ⟨mem_queried H G W ind, fun hex => ⟨?_, ?_⟩⟩
  · intro hq
    obtain ⟨w, hw, h0, _⟩ := (mem_queried H G W ind ind).1 hq
    exact (not_mem_buildWindow_of_excludes H ind W hex w hw).1 h0
  · intro e he heq
    have hK : (compute_job.make H G W job ind).Kbanned =
        (ibd2Pass G H ind W (buildPass H ind W)).Kbanned := rfl
    rw [hK, ibd2Pass_build] at he
    obtain ⟨w, hw, he⟩ := List.mem_flatMap.1 he
    obtain ⟨j, hj, rfl⟩ := List.mem_map.1 he
    have hf := ((tags_eq_flaggedInds G H ind w _ (buildWindow_sorted H ind w)).2.2 j).1 hj
    simp only at heq
    subst heq
    exact (not_mem_buildWindow_of_excludes H j W hex w hw).1 hf.1

/-- C6 (counterexample to the claim as stated): with a table that lists the two haplotypes of
target 0 as neighbours of each other, `make` queries `getMatchHets` for individual 0 itself
and `Kbanned` names it. -/
theorem C6_counterexample :
    buildPass scenarioSelfPair 0 [⟨0, 0⟩] = [[0, 1]] ∧
    compute_job.queried scenarioSelfPair (diploids 3) [⟨0, 0⟩] 0 = [0] ∧
    (compute_job.make scenarioSelfPair (diploids 3) [⟨0, 0⟩] freshJob 0).Kbanned =
      [(0, 0, 0)] := by
  decide

/-- C6 (witness): in the four-window scenario the table lists only the haplotypes 4 and 5 for
target 0; individual 2 is queried and banned, the target is not. -/
theorem C6_witness :
    tableExcludesTarget scenarioIBD2 0 scenarioWindows ∧
    compute_job.queried scenarioIBD2 (diploids 3) scenarioWindows 0 = [2] ∧
    (0 ∉ compute_job.queried scenarioIBD2 (diploids 3) scenarioWindows 0 ∧
      ∀ e ∈ (compute_job.make scenarioIBD2 (diploids 3) scenarioWindows freshJob 0).Kbanned,
        e.1 ≠ 0) :=
  ⟨scenarioIBD2_excludes, by decide,
    (C6_target_pair_guard scenarioIBD2 (diploids 3) scenarioWindows freshJob 0).2
      scenarioIBD2_excludes⟩

/-- C7: the fallback of `compute_job::make` leaves a window that has at least 2 states after
the IBD2 pass unchanged and does not advance `Oiterator` for it, so that it triggers only for
windows with fewer than 2 states; for every window the list after the fallback contains
every entry of the list before it and is at least as long. -/
theorem C7_fallback_frame (H : conditioning_set) (G : genotype_set) (W : List window)
    (job : compute_job) (ind i : Nat) (pre post : List Nat)
    (hpre : (ibd2Pass G H ind W (buildPass H ind W)).Kstates[i]? = some pre)
    (hpost : (compute_job.make H G W job ind).Kstates[i]? = some post) :
    (2 ≤ pre.length →
      post = pre ∧
      cursorAt H job.Ordering ind (ibd2Pass G H ind W (buildPass H ind W)).Kstates
          job.Oiterator (i + 1) =
        cursorAt H job.Ordering ind (ibd2Pass G H ind W (buildPass H ind W)).Kstates
          job.Oiterator i) ∧
    (∀ x ∈ pre, x ∈ post) ∧
    pre.length ≤ post.length := by
  rw [make_Kstates_getElem?, hpre] at hpost
  simp only [Option.map_some', Option.some.injEq] at hpost
  subst hpost
  refine ⟨fun h2 => ⟨?_, ?_⟩, fun x hx => fallbackWindow_mono H job.Ordering ind pre _ x hx,
    fallbackWindow_length H job.Ordering ind pre _⟩
  · rw [fallbackWindow_large H job.Ordering ind pre _ h2]
  · rw [cursorAt_succ H job.Ordering ind _ _ i pre hpre,
      fallbackWindow_large H job.Ordering ind pre _ h2]

/-- C7 (witness): a window that keeps its two states `[1, 5]` and leaves the cursor at 0. -/
theorem C7_witness :
    (ibd2Pass (diploids 3) scenarioSibling 0 [⟨0, 0⟩]
      (buildPass scenarioSibling 0 [⟨0, 0⟩])).Kstates[0]? = some [1, 5] ∧
    (compute_job.make scenarioSibling (diploids 3) [⟨0, 0⟩] freshJob 0).Kstates[0]? =
      some [1, 5] ∧
    (compute_job.make scenarioSibling (diploids 3) [⟨0, 0⟩] freshJob 0).Oiterator = 0 ∧
    ((2 ≤ [1, 5].length →
      [1, 5] = [1, 5] ∧
      cursorAt scenarioSibling freshJob.Ordering 0 (ibd2Pass (diploids 3) scenarioSibling 0
          [⟨0, 0⟩] (buildPass scenarioSibling 0 [⟨0, 0⟩])).Kstates freshJob.Oiterator (0 + 1) =
        cursorAt scenarioSibling freshJob.Ordering 0 (ibd2Pass (diploids 3) scenarioSibling 0
          [⟨0, 0⟩] (buildPass scenarioSibling 0 [⟨0, 0⟩])).Kstates freshJob.Oiterator 0) ∧
    (∀ x ∈ [1, 5], x ∈ [1, 5]) ∧
    [1, 5].length ≤ [1, 5].length) :=
  ⟨by decide, by decide, by decide,
    C7_fallback_frame scenarioSibling (diploids 3) [⟨0, 0⟩] freshJob 0 0 [1, 5] [1, 5]
      (by decide) (by decide)⟩

/-- C8: if `n_hap = 2 * n_ind` with `n_ind ≥ 2`, `ind < n_ind`, `Ordering` is a permutation
of the haplotype ids `[0, n_hap)` and `Oiterator < n_hap` on entry, then after
`compute_job::make` there is one list per window and every `Kstates[w]` has at least 2
entries, whatever the neighbour table, the windows and the overlap values are. -/
theorem C8_at_least_two_states (H : conditioning_set) (G : genotype_set) (W : List window)
    (job : compute_job) (ind : Nat)
    (hhap : H.n_hap = 2 * H.n_ind) (hind : 2 ≤ H.n_ind) (_hlt : ind < H.n_ind)
    (hperm : job.Ordering.Perm (List.range H.n_hap)) (hcur : job.Oiterator < H.n_hap) :
    (compute_job.make H G W job ind).Kstates.length = W.length ∧
    ∀ K ∈ (compute_job.make H G W job ind).Kstates, 2 ≤ K.length := by
  refine ⟨make_Kstates_length H G W job ind, fun K hK => ?_⟩
  obtain ⟨i, hi⟩ := List.mem_iff_getElem?.1 hK
  rw [make_Kstates_getElem?] at hi
  obtain ⟨pre, _, rfl⟩ := Option.map_eq_some'.1 hi
  refine fallbackWindow_two_le H job.Ordering ind _ pre (by omega) ?_ ?_ ?_
  · rw [hperm.length_eq, List.length_range]
  · exact hperm.nodup_iff.2 (List.nodup_range _)
  · exact cursorAt_lt H job.Ordering ind _ _ i hcur

set_option maxRecDepth 100000 in
/-- C8 (witness): three individuals, six haplotypes, target 0; the four windows, empty or
emptied by the IBD2 pass, end with four states each. -/
theorem C8_witness :
    (compute_job.make scenarioIBD2 (diploids 3) scenarioWindows freshJob 0).Kstates =
      [[2, 3, 4, 5], [2, 3, 4, 5], [2, 3, 4, 5], [2, 3, 4, 5]] ∧
    ((compute_job.make scenarioIBD2 (diploids 3) scenarioWindows freshJob 0).Kstates.length =
      scenarioWindows.length ∧
    ∀ K ∈ (compute_job.make scenarioIBD2 (diploids 3) scenarioWindows freshJob 0).Kstates,
      2 ≤ K.length) :=
  ⟨by decide,
    C8_at_least_two_states scenarioIBD2 (diploids 3) scenarioWindows freshJob 0
      (by decide) (by decide) (by decide) (List.Perm.refl _) (by decide)⟩

/-- C9: for `n_hap ≥ 1` and `Oiterator < n_hap` on entry, let `c` be the value of `Oiterator`
when the fallback of `compute_job::make` reaches a window with fewer than 2 states after the
IBD2 pass: `c < n_hap`, the draw loop appends to the window's list exactly the values
`Ordering[(c + i) mod n_hap]`, `i < 100`, that do not belong to the target, in this order, and
leaves `Oiterator = (c + 100) mod n_hap` (skipped draws count), and `Kstates[w]` is that list
sorted and deduplicated; a window with at least 2 states leaves the cursor as it is; after
`make`, `Oiterator = (c0 + 100 * number of windows with fewer than 2 states) mod n_hap`. -/
theorem C9_cursor_advance (H : conditioning_set) (G : genotype_set) (W : List window)
    (job : compute_job) (ind : Nat) (_hn : 1 ≤ H.n_hap) (hcur : job.Oiterator < H.n_hap) :
    (∀ (i : Nat) (pre : List Nat),
      (ibd2Pass G H ind W (buildPass H ind W)).Kstates[i]? = some pre → pre.length < 2 →
      cursorAt H job.Ordering ind (ibd2Pass G H ind W (buildPass H ind W)).Kstates
        job.Oiterator i < H.n_hap ∧
      (List.range N_RANDOM_HAPS).foldl (drawStep H job.Ordering ind)
          (pre, cursorAt H job.Ordering ind (ibd2Pass G H ind W (buildPass H ind W)).Kstates
            job.Oiterator i) =
        (pre ++ acceptedDraws H job.Ordering ind
            (cursorAt H job.Ordering ind (ibd2Pass G H ind W (buildPass H ind W)).Kstates
              job.Oiterator i),
          (cursorAt H job.Ordering ind (ibd2Pass G H ind W (buildPass H ind W)).Kstates
            job.Oiterator i + 100) % H.n_hap) ∧
      (compute_job.make H G W job ind).Kstates[i]? =
        some (sortUnique (pre ++ acceptedDraws H job.Ordering ind
          (cursorAt H job.Ordering ind (ibd2Pass G H ind W (buildPass H ind W)).Kstates
            job.Oiterator i))) ∧
      cursorAt H job.Ordering ind (ibd2Pass G H ind W (buildPass H ind W)).Kstates
          job.Oiterator (i + 1) =
        (cursorAt H job.Ordering ind (ibd2Pass G H ind W (buildPass H ind W)).Kstates
          job.Oiterator i + 100) % H.n_hap) ∧
    (∀ (i : Nat) (pre : List Nat),
      (ibd2Pass G H ind W (buildPass H ind W)).Kstates[i]? = some pre → 2 ≤ pre.length →
      cursorAt H job.Ordering ind (ibd2Pass G H ind W (buildPass H ind W)).Kstates
          job.Oiterator (i + 1) =
        cursorAt H job.Ordering ind (ibd2Pass G H ind W (buildPass H ind W)).Kstates
          job.Oiterator i) ∧
    (∀ c v, v ∈ acceptedDraws H job.Ordering ind c ↔
      (∃ i, i < 100 ∧ job.Ordering.getD ((c + i) % H.n_hap) 0 = v) ∧ v / 2 ≠ ind) ∧
    cursorAt H job.Ordering ind (ibd2Pass G H ind W (buildPass H ind W)).Kstates
      job.Oiterator 0 = job.Oiterator ∧
    (compute_job.make H G W job ind).Oiterator =
      (job.Oiterator + 100 * (ibd2Pass G H ind W (buildPass H ind W)).Kstates.countP
        (fun K => decide (K.length < 2))) % H.n_hap := by
  refine ⟨fun i pre hpre hlt => ?_, fun i pre hpre h2 => ?_,
    fun c v => mem_acceptedDraws H job.Ordering ind c v, cursorAt_zero _ _ _ _ _,
    fallbackPass_cursor H job.Ordering ind _ _ hcur⟩
  · have hc := cursorAt_lt H job.Ordering ind
      (ibd2Pass G H ind W (buildPass H ind W)).Kstates job.Oiterator i hcur
    refine ⟨hc, ?_, ?_, ?_⟩
    · rw [drawFold H job.Ordering ind pre _ hc]
      rfl
    · rw [make_Kstates_getElem?, hpre, Option.map_some',
        fallbackWindow_small H job.Ordering ind pre _ hc hlt]
    · rw [cursorAt_succ H job.Ordering ind _ _ i pre hpre,
        fallbackWindow_small H job.Ordering ind pre _ hc hlt]
      rfl
  · rw [cursorAt_succ H job.Ordering ind _ _ i pre hpre,
      fallbackWindow_large H job.Ordering ind pre _ h2]

set_option maxRecDepth 100000 in
/-- C9 (witness): six haplotypes, cursor 0 on entry, four windows that all trigger the
fallback: the cursor ends at `(0 + 100 * 4) mod 6 = 4`. -/
theorem C9_witness :
    (compute_job.make scenarioIBD2 (diploids 3) scenarioWindows freshJob 0).Oiterator = 4 ∧
    (compute_job.make scenarioIBD2 (diploids 3) scenarioWindows freshJob 0).Oiterator =
      (freshJob.Oiterator + 100 * (ibd2Pass (diploids 3) scenarioIBD2 0 scenarioWindows
        (buildPass scenarioIBD2 0 scenarioWindows)).Kstates.countP
          (fun K => decide (K.length < 2))) % scenarioIBD2.n_hap :=
  ⟨by decide,
    (C9_cursor_advance scenarioIBD2 (diploids 3) scenarioWindows freshJob 0
      (by decide) (by decide)).2.2.2.2⟩

set_option maxRecDepth 100000 in
/-- C14: with a single individual (`n_ind = 1`, `n_hap = 2`, `Ordering = [0, 1]`) and a
window for which the table holds no neighbour, `compute_job::make` for target 0 returns
normally with that window's `Kstates[w]` empty and the cursor at `(0 + 100) mod 2 = 0`: no
error is raised.  In general, when every entry of `Ordering` belongs to the target the
fallback of step 4 appends nothing, so `make` returns the lists of step 3 as they are, and
a window left empty by step 3 is returned empty. -/
theorem C14_all_target_universe_returns_empty :
    (compute_job.make scenarioLonely (diploids 1) [⟨0, 0⟩]
      (compute_job.compute_job scenarioLonely 0 0) 0).Kstates = [[]] ∧
    (compute_job.make scenarioLonely (diploids 1) [⟨0, 0⟩]
      (compute_job.compute_job scenarioLonely 0 0) 0).Oiterator = 0 ∧
    (compute_job.compute_job scenarioLonely 0 0).Ordering = [0, 1] ∧
    (∀ (H : conditioning_set) (G : genotype_set) (W : List window) (job : compute_job)
      (ind : Nat), (∀ v ∈ job.Ordering, v / 2 = ind) → job.Ordering.length = H.n_hap →
      job.Oiterator < H.n_hap →
      (compute_job.make H G W job ind).Kstates =
        (ibd2Pass G H ind W (buildPass H ind W)).Kstates ∧
      ∀ i : Nat, (ibd2Pass G H ind W (buildPass H ind W)).Kstates[i]? = some [] →
        (compute_job.make H G W job ind).Kstates[i]? = some []) := by
  refine ⟨by decide, by decide, by decide, ?_⟩
  intro H G W job ind hall hlen hc
  have h : (compute_job.make H G W job ind).Kstates =
      (ibd2Pass G H ind W (buildPass H ind W)).Kstates :=
    fallbackPass_all_target H job.Ordering ind hall hlen _ _
      (ibd2Pass_Kstates_sorted G H ind W) hc
  exact ⟨h, fun i hi => by rw [h]; exact hi⟩

/-- C17: the neighbour-table address of `compute_job::make`,
`addr(s, h, b) = s * (n_groups * n_ind * 2) + h * n_groups + b`, is in bounds and injective:
for every rank `s < depth`, haplotype `h < 2 * n_ind` and bucket `b < n_groups` it is below
`depth * 2 * n_ind * n_groups`, and two in-range triples with the same address are equal;
when the table has at most `2 ^ 64` entries the 64-bit evaluation of the address of an
in-range triple does not wrap around. -/
theorem C17_addr_in_bounds_injective (H : conditioning_set) :
    (∀ s h b : Nat, addr H s h b =
      s * (H.sites_pbwt_ngroups * H.n_ind * 2) + h * H.sites_pbwt_ngroups + b) ∧
    (∀ s h l : Nat, neighbour H s h l =
      H.indexes_pbwt_neighbour (addr H s h (H.sites_pbwt_grouping l))) ∧
    (∀ s h b : Nat, s < H.depth → h < 2 * H.n_ind → b < H.sites_pbwt_ngroups →
      addr H s h b < H.depth * 2 * H.n_ind * H.sites_pbwt_ngroups) ∧
    (∀ s h b s' h' b' : Nat,
      s < H.depth → h < 2 * H.n_ind → b < H.sites_pbwt_ngroups →
      s' < H.depth → h' < 2 * H.n_ind → b' < H.sites_pbwt_ngroups →
      addr H s h b = addr H s' h' b' → s = s' ∧ h = h' ∧ b = b') ∧
    (∀ s h b : Nat, s < H.depth → h < 2 * H.n_ind → b < H.sites_pbwt_ngroups →
      H.depth * 2 * H.n_ind * H.sites_pbwt_ngroups ≤ 2 ^ 64 →
      addr_wrapping H s h b = addr H s h b) :=
  ⟨fun _ _ _ => rfl, fun _ _ _ => rfl, fun s h b hs hh hb => addr_lt H s h b hs hh hb,
    fun s h b s' h' b' _ hh hb _ hh' hb' e => addr_inj H s h b s' h' b' hh hb hh' hb' e,
    fun s h b hs hh hb hsize => addr_wrapping_eq H s h b hs hh hb hsize⟩

/-- C17 (witness): in the four-window scenario (depth 2, 3 individuals, 4 buckets, a table of
48 entries) the last in-range triple has address 47, and the triples `(0, 0, 3)` and
`(1, 0, 3)` read by `make` have the addresses 3 and 27. -/
theorem C17_witness :
    addr scenarioIBD2 1 5 3 = 47 ∧ addr scenarioIBD2 0 0 3 = 3 ∧ addr scenarioIBD2 1 0 3 = 27 ∧
    addr scenarioIBD2 1 5 3 <
      scenarioIBD2.depth * 2 * scenarioIBD2.n_ind * scenarioIBD2.sites_pbwt_ngroups :=
  ⟨by decide, by decide, by decide,
    (C17_addr_in_bounds_injective scenarioIBD2).2.2.1 1 5 3 (by decide) (by decide) (by decide)⟩

/-- C16: in a sorted duplicate-free list of haplotype ids the haplotypes `2j` and `2j+1` of
an individual, when both are present, occupy adjacent positions `k` and `k+1`; the scan of
the IBD2 guard of `compute_job::make`, which runs over the adjacent positions, therefore meets
the pair (`ind0 = ind1 = j` at index `k+1`), queries `getMatchHets` for it when `j` is a
diploid individual of `G`, and bans it when the overlap exceeds the threshold; in `make`
every such pair of every window is queried, whatever the depth. -/
theorem C16_adjacent_pairs_all_scanned (G : genotype_set) (H : conditioning_set) (ind : Nat)
    (W : List window) :
    (∀ (K : List Nat) (j : Nat), K.Sorted (· < ·) → 2 * j ∈ K → 2 * j + 1 ∈ K →
      (∃ k, K[k]? = some (2 * j) ∧ K[k + 1]? = some (2 * j + 1)) ∧
      (∃ k ∈ List.range' 1 (K.length - 1), K.getD (k - 1) 0 / 2 = j ∧ K.getD k 0 / 2 = j) ∧
      (j < G.n_ind → G.haploid j = false →
        ∀ (w : window) (B : List (Nat × Nat × Nat)) (Q : List Nat),
          j ∈ (ibd2Scan G H ind w K B Q).queried ∧
          (H.getMatchHets ind j w.start_locus w.stop_locus > MAX_OVERLAP_HETS →
            (j, w.start_locus, w.stop_locus) ∈ (ibd2Scan G H ind w K B Q).Kbanned))) ∧
    (∀ w ∈ W, ∀ j, 2 * j ∈ buildWindow H ind w → 2 * j + 1 ∈ buildWindow H ind w →
      j < G.n_ind → G.haploid j = false → j ∈ compute_job.queried H G W ind) := by
  refine ⟨fun K j hK h0 h1 => ?_, fun w hw j h0 h1 hn hh =>
    (mem_queried H G W ind j).2 ⟨w, hw, h0, h1, hn, hh⟩⟩
  obtain ⟨k, hk0, hk1⟩ := adjacent_of_sorted j K hK h0 h1
  refine ⟨⟨k, hk0, hk1⟩, ⟨k + 1, ?_, ?_, ?_⟩,
    fun hn hh w B Q => scan_finds_pair G H ind w K B Q j hK h0 h1 hn hh⟩
  · have hlt : k + 1 < K.length := by
      by_contra hge
      rw [List.getElem?_eq_none (Nat.le_of_not_lt hge)] at hk1
      exact Option.noConfusion hk1
    rw [List.mem_range'_1]
    omega
  · simp only [Nat.add_sub_cancel, List.getD_eq_getElem?_getD, hk0, Option.getD_some]
    omega
  · simp only [List.getD_eq_getElem?_getD, hk1, Option.getD_some]
    omega

/-- C16 (witness): in the list `[1, 4, 5, 9]` the haplotypes 4 and 5 of individual 2 stand at
the positions 1 and 2, and the scan queries individual 2 and bans it. -/
theorem C16_witness :
    (∃ k, [1, 4, 5, 9][k]? = some (2 * 2) ∧ [1, 4, 5, 9][k + 1]? = some (2 * 2 + 1)) ∧
    (ibd2Scan (diploids 3) scenarioIBD2 0 ⟨3, 3⟩ [1, 4, 5, 9] [] []).queried = [2] ∧
    (ibd2Scan (diploids 3) scenarioIBD2 0 ⟨3, 3⟩ [1, 4, 5, 9] [] []).Kbanned = [(2, 3, 3)] ∧
    (ibd2Scan (diploids 3) scenarioIBD2 0 ⟨3, 3⟩ [1, 4, 5, 9] [] []).toBeRemoved = [1, 2] :=
  ⟨((C16_adjacent_pairs_all_scanned (diploids 3) scenarioIBD2 0 scenarioWindows).1
      [1, 4, 5, 9] 2 (by decide) (by decide) (by decide)).1,
    by decide, by decide, by decide⟩

/-- C18: in the IBD2 pass of `compute_job::make`, when `Kstates[w]` is strictly ascending on
entry, the index list `toBeRemoved` is strictly increasing (no index is marked twice), its
entries are positions of `Kstates[w]` and its length is at most `|Kstates[w]|`; the merge loop
of step 3.2 then keeps, in order, exactly the entries whose position is not marked, and the
reserve size `|Kstates[w]| - |toBeRemoved|` is the number of entries kept. -/
theorem C18_toBeRemoved_strictly_increasing (G : genotype_set) (H : conditioning_set)
    (ind : Nat) (w : window) (K : List Nat) (B : List (Nat × Nat × Nat)) (Q : List Nat)
    (hK : K.Sorted (· < ·)) :
    (ibd2Scan G H ind w K B Q).toBeRemoved.Sorted (· < ·) ∧
    (∀ r ∈ (ibd2Scan G H ind w K B Q).toBeRemoved, r < K.length) ∧
    (ibd2Scan G H ind w K B Q).toBeRemoved.length ≤ K.length ∧
    removeMarked K (ibd2Scan G H ind w K B Q).toBeRemoved =
      (K.enum.filter
        (fun p => decide (p.1 ∉ (ibd2Scan G H ind w K B Q).toBeRemoved))).map Prod.snd ∧
    (removeMarked K (ibd2Scan G H ind w K B Q).toBeRemoved).length +
      (ibd2Scan G H ind w K B Q).toBeRemoved.length = K.length := by
  rw [ibd2Scan_eq]
  simp only
  have hs := marks_sorted (ibd2Ind G H ind w) K 0 hK
  have hlt := marks_lt (ibd2Ind G H ind w) K 0
  have hlen := keep_length (ibd2Ind G H ind w) K 0 hK
  simp only [Nat.zero_add] at hs hlt hlen
  have hrm := rm_marks (ibd2Ind G H ind w) K 0 hK
  simp only [Nat.zero_add] at hrm
  refine ⟨hs, hlt, by omega, ?_, ?_⟩
  · rw [removeMarked_eq, rm_eq_filter K 0 _ hs (fun _ _ => Nat.zero_le _)]
    rfl
  · rw [removeMarked_eq, hrm]
    exact hlen

/-- C18 (witness): for the list `[1, 4, 5, 9]` with the pair 4, 5 above the threshold the
marks are `[1, 2]` and the merge loop keeps `[1, 9]`. -/
theorem C18_witness :
    (ibd2Scan (diploids 3) scenarioIBD2 0 ⟨3, 3⟩ [1, 4, 5, 9] [] []).toBeRemoved = [1, 2] ∧
    removeMarked [1, 4, 5, 9] [1, 2] = [1, 9] ∧
    (ibd2Scan (diploids 3) scenarioIBD2 0 ⟨3, 3⟩ [1, 4, 5, 9] [] []).toBeRemoved.Sorted
      (· < ·) :=
  ⟨by decide, by decide,
    (C18_toBeRemoved_strictly_increasing (diploids 3) scenarioIBD2 0 ⟨3, 3⟩ [1, 4, 5, 9] [] []
      (by decide)).1⟩

/-- C19: after construction `Ordering` is the identity permutation of the haplotype ids
`[0, n_hap)` and `Oiterator = 0`; every call of `compute_job::make` leaves `Ordering`
unchanged and, when `n_hap ≥ 1`, keeps `Oiterator < n_hap`; every read `Ordering[Oiterator]`
of a call is then in bounds (the cursor before each of the 100 draws of a window is below
the size of `Ordering`); a call starts from the cursor left by the call before it, so that
the invariant holds after any sequence of calls on a constructed job. -/
theorem C19_cursor_invariant (H : conditioning_set) (G : genotype_set) :
    (∀ t m : Nat, (compute_job.compute_job H t m).Ordering = List.range H.n_hap ∧
      (compute_job.compute_job H t m).Ordering.Perm (List.range H.n_hap) ∧
      (compute_job.compute_job H t m).Ordering.length = H.n_hap ∧
      (compute_job.compute_job H t m).Oiterator = 0) ∧
    (∀ (W : List window) (job : compute_job) (ind : Nat),
      (compute_job.make H G W job ind).Ordering = job.Ordering) ∧
    (∀ (W : List window) (job : compute_job) (ind : Nat), 1 ≤ H.n_hap →
      job.Oiterator < H.n_hap → (compute_job.make H G W job ind).Oiterator < H.n_hap) ∧
    (∀ (W : List window) (job : compute_job) (ind : Nat), job.Ordering.length = H.n_hap →
      job.Oiterator < H.n_hap →
      ∀ (i : Nat) (pre : List Nat),
        (ibd2Pass G H ind W (buildPass H ind W)).Kstates[i]? = some pre →
        ∀ m, m < N_RANDOM_HAPS →
          ((List.range m).foldl (drawStep H job.Ordering ind)
            (pre, cursorAt H job.Ordering ind (ibd2Pass G H ind W (buildPass H ind W)).Kstates
              job.Oiterator i)).2 < job.Ordering.length) ∧
    (∀ (W W' : List window) (job : compute_job) (ind ind' : Nat),
      (compute_job.make H G W' (compute_job.make H G W job ind) ind').Oiterator =
        (fallbackPass H job.Ordering ind'
          (ibd2Pass G H ind' W' (buildPass H ind' W')).Kstates
          (compute_job.make H G W job ind).Oiterator).2) ∧
    (∀ (t m : Nat) (calls : List (Nat × List window)), 1 ≤ H.n_hap →
      (calls.foldl (fun job c => compute_job.make H G c.2 job c.1)
        (compute_job.compute_job H t m)).Ordering = List.range H.n_hap ∧
      (calls.foldl (fun job c => compute_job.make H G c.2 job c.1)
        (compute_job.compute_job H t m)).Oiterator < H.n_hap) := by
  refine ⟨fun t m => ⟨rfl, List.Perm.refl _, List.length_range _, rfl⟩,
    fun W job ind => rfl,
    fun W job ind _ hc => make_Oiterator_lt H G W job ind hc,
    fun W job ind hlen hc i pre _ m _ => ?_,
    fun W W' job ind ind' => rfl,
    fun t m calls hn => calls_invariant H G hn calls _ rfl (by
      show 0 < H.n_hap
      omega)⟩
  have hci := cursorAt_lt H job.Ordering ind
    (ibd2Pass G H ind W (buildPass H ind W)).Kstates job.Oiterator i hc
  rw [drawFold H job.Ordering ind pre _ hci m, hlen]
  exact Nat.mod_lt _ (by omega)

set_option maxRecDepth 100000 in
/-- C19 (witness): a job constructed for six haplotypes and called twice, for the targets 0
and 1 on one window without neighbours, ends with the ordering `0, ..., 5` and the cursor
`(0 + 200) mod 6 = 2`. -/
theorem C19_witness :
    (compute_job.make scenarioIBD2 (diploids 3) [⟨0, 0⟩]
      (compute_job.make scenarioIBD2 (diploids 3) [⟨0, 0⟩]
        (compute_job.compute_job scenarioIBD2 0 0) 0) 1).Oiterator = 2 ∧
    ([(0, [(⟨0, 0⟩ : window)]), (1, [⟨0, 0⟩])].foldl
        (fun job c => compute_job.make scenarioIBD2 (diploids 3) c.2 job c.1)
        (compute_job.compute_job scenarioIBD2 0 0)).Ordering = List.range scenarioIBD2.n_hap ∧
    ([(0, [(⟨0, 0⟩ : window)]), (1, [⟨0, 0⟩])].foldl
        (fun job c => compute_job.make scenarioIBD2 (diploids 3) c.2 job c.1)
        (compute_job.compute_job scenarioIBD2 0 0)).Oiterator < scenarioIBD2.n_hap :=
  ⟨by decide,
    (C19_cursor_invariant scenarioIBD2 (diploids 3)).2.2.2.2.2 0 0
      [(0, [⟨0, 0⟩]), (1, [⟨0, 0⟩])] (by decide)⟩

/-- C20: `compute_job::make` depends on the previous state of the job only through
`Ordering` and `Oiterator`: two job states that agree on both, whatever their `Kstates` and
`Kbanned`, give the same `Kstates`, `Kbanned` and `Oiterator` (and `Ordering`) after a call
with the same target, windows, neighbour table and overlap function; in particular nothing
of the `Kstates` and `Kbanned` left by an earlier call is retained. -/
theorem C20_make_ignores_old_states (H : conditioning_set) (G : genotype_set)
    (W : List window) (job₁ job₂ : compute_job) (ind : Nat)
    (hO : job₁.Ordering = job₂.Ordering) (hc : job₁.Oiterator = job₂.Oiterator) :
    (compute_job.make H G W job₁ ind).Kstates = (compute_job.make H G W job₂ ind).Kstates ∧
    (compute_job.make H G W job₁ ind).Kbanned = (compute_job.make H G W job₂ ind).Kbanned ∧
    (compute_job.make H G W job₁ ind).Oiterator = (compute_job.make H G W job₂ ind).Oiterator ∧
    (compute_job.make H G W job₁ ind).Ordering = (compute_job.make H G W job₂ ind).Ordering ∧
    (compute_job.make H G W job₁ ind).Kbanned =
      (ibd2Pass G H ind W (buildPass H ind W)).Kbanned := by
  unfold compute_job.make
  simp only [hO, hc, and_self]

/-- C20 (witness): a job that holds the range `(2, 3, 3)` banned by an earlier call and four
lists, and a fresh job, give the same result for target 1, whose `Kbanned` is empty. -/
theorem C20_witness :
    (compute_job.make scenarioIBD2 (diploids 3) scenarioWindows
      { Kstates := [[2, 3], [], [], [4]], Kbanned := [(2, 3, 3)],
        Ordering := [0, 1, 2, 3, 4, 5], Oiterator := 0 } 1).Kbanned = [] ∧
    ((compute_job.make scenarioIBD2 (diploids 3) scenarioWindows
      { Kstates := [[2, 3], [], [], [4]], Kbanned := [(2, 3, 3)],
        Ordering := [0, 1, 2, 3, 4, 5], Oiterator := 0 } 1).Kstates =
      (compute_job.make scenarioIBD2 (diploids 3) scenarioWindows freshJob 1).Kstates ∧
    (compute_job.make scenarioIBD2 (diploids 3) scenarioWindows
      { Kstates := [[2, 3], [], [], [4]], Kbanned := [(2, 3, 3)],
        Ordering := [0, 1, 2, 3, 4, 5], Oiterator := 0 } 1).Kbanned =
      (compute_job.make scenarioIBD2 (diploids 3) scenarioWindows freshJob 1).Kbanned) :=
  ⟨by decide,
    ⟨(C20_make_ignores_old_states scenarioIBD2 (diploids 3) scenarioWindows
        { Kstates := [[2, 3], [], [], [4]], Kbanned := [(2, 3, 3)],
          Ordering := [0, 1, 2, 3, 4, 5], Oiterator := 0 } freshJob 1 rfl rfl).1,
      (C20_make_ignores_old_states scenarioIBD2 (diploids 3) scenarioWindows
        { Kstates := [[2, 3], [], [], [4]], Kbanned := [(2, 3, 3)],
          Ordering := [0, 1, 2, 3, 4, 5], Oiterator := 0 } freshJob 1 rfl rfl).2.1⟩⟩

end phase_common

namespace phase2

/-! ## Bucket compaction in `conditioning_set::initialize` -/

/-- The compaction loop from any state, in structural form. -/
theorem foldl_compactStep (raw : List Int) : ∀ st : compact_state,
    (raw.foldl compactStep st).out = st.out ++ compactFrom st.src st.tar raw := by
  induction raw with
  | nil => intro st; simp [compactFrom]
  | cons g raw ih =>
    intro st
    rw [List.foldl_cons, ih, compactFrom]
    unfold compactStep
    split_ifs with h <;> simp

/-- The compaction loop in structural form. -/
theorem compact_eq (raw : List Int) : compact raw = compactFrom (-1) (-1) raw := by
  unfold compact
  rw [foldl_compactStep]
  rfl

/-- The compaction writes one id per site. -/
theorem compactFrom_length : ∀ (raw : List Int) (src tar : Int),
    (compactFrom src tar raw).length = raw.length
  | [], _, _ => rfl
  | g :: raw, src, tar => by
    rw [compactFrom]
    split_ifs <;> simp [compactFrom_length raw]

/-- Every id written is the current `tar` or follows it, and so on along the sites. -/
theorem compactFrom_chain : ∀ (raw : List Int) (src tar : Int),
    List.Chain (fun a b => b = a ∨ b = a + 1) tar (compactFrom src tar raw)
  | [], _, _ => List.Chain.nil
  | g :: raw, src, tar => by
    rw [compactFrom]
    split_ifs
    · exact List.Chain.cons (Or.inl rfl) (compactFrom_chain raw src tar)
    · exact List.Chain.cons (Or.inr rfl) (compactFrom_chain raw g (tar + 1))

/-- Two consecutive entries of a chain are related. -/
theorem chain_getElem? {R : Int → Int → Prop} : ∀ (l : List Int) (x : Int), List.Chain R x l →
    ∀ (i : Nat) (a b : Int), l[i]? = some a → l[i + 1]? = some b → R a b
  | [], _, _, i, a, b, h, _ => by simp at h
  | y :: l, x, hc, 0, a, b, ha, hb => by
    cases l with
    | nil => simp at hb
    | cons z l =>
      simp only [List.getElem?_cons_zero, List.getElem?_cons_succ, Option.some.injEq] at ha hb
      subst ha hb
      exact (List.chain_cons.1 (List.chain_cons.1 hc).2).1
  | y :: l, x, hc, i + 1, a, b, ha, hb => by
    simp only [List.getElem?_cons_succ] at ha hb
    exact chain_getElem? l y (List.chain_cons.1 hc).2 i a b ha hb

/-- Rounding a non-negative value gives a non-negative integer. -/
theorem cround_nonneg (q : ℚ) (h : 0 ≤ q) : 0 ≤ cround q := by
  unfold cround
  rw [if_pos h]
  exact Int.floor_nonneg.2 (by linarith)

/-- The value -1 rounds to -1. -/
theorem cround_neg_one : cround (-1) = -1 := by
  unfold cround
  rw [if_neg (by norm_num), Int.ceil_eq_iff]
  norm_num

/-- The bucket ids computed by `initialize`. -/
theorem grouping_eq (V : List variant) (modulo mdr : ℚ) (depth mac : Int) :
    ( conditioning_set.initialize V modulo mdr depth mac).sites_pbwt_grouping =
      compactFrom (-1) (-1) (V.map (bucket_raw modulo)) := by
  unfold conditioning_set.initialize
  exact compact_eq _

/-- The first id is 0 when the first raw bucket is not the initial `src`. -/
theorem compactFrom_head (g : Int) (raw : List Int) (h : g ≠ -1) :
    (compactFrom (-1) (-1) (g :: raw)).head? = some 0 := by
  rw [compactFrom, if_neg (fun e => h e.symm)]
  rfl

/-- The raw buckets of the four-site scenario. -/
theorem scenarioSites_raw : scenarioSites.map (bucket_raw 1) = [0, 0, 1, 1] := by
  have h0 : bucket_raw 1 ⟨0, 0, 0⟩ = 0 := by norm_num [bucket_raw, cround]
  have h1 : bucket_raw 1 ⟨0, 0, 2 / 5⟩ = 0 := by norm_num [bucket_raw, cround]
  have h2 : bucket_raw 1 ⟨0, 0, 6 / 5⟩ = 1 := by
    norm_num [bucket_raw, cround]
  have h3 : bucket_raw 1 ⟨0, 0, 13 / 10⟩ = 1 := by
    norm_num [bucket_raw, cround]
  simp only [scenarioSites, List.map_cons, List.map_nil, h0, h1, h2, h3]

/-- The bucket ids of the four-site scenario. -/
theorem scenarioSites_grouping (mdr : ℚ) (depth mac : Int) :
    ( conditioning_set.initialize scenarioSites 1 mdr depth mac).sites_pbwt_grouping =
      [0, 0, 1, 1] := by
  rw [grouping_eq, scenarioSites_raw]
  decide

/-- One site of the compaction: the id written, and the state `(g, id)` for the next site. -/
theorem compactFrom_cons (src tar g : Int) (raw : List Int) :
    compactFrom src tar (g :: raw) =
      (if src = g then tar else tar + 1) ::
        compactFrom g (if src = g then tar else tar + 1) raw := by
  rw [compactFrom]
  split_ifs with h
  · rw [h]
  · rfl

/-- Run-length collapsing: a site keeps the id of the site before it iff it has the same raw
bucket, and otherwise gets the next id. -/
theorem compactFrom_step : ∀ (raw : List Int) (src tar : Int) (l : Nat) (a b ra rb : Int),
    (compactFrom src tar raw)[l]? = some a → (compactFrom src tar raw)[l + 1]? = some b →
    raw[l]? = some ra → raw[l + 1]? = some rb →
    (b = a ↔ rb = ra) ∧ (rb ≠ ra → b = a + 1)
  | [], _, _, l, a, b, ra, rb, _, _, hra, _ => by simp at hra
  | [g], _, _, 0, a, b, ra, rb, _, _, _, hrb => by simp at hrb
  | g :: g' :: raw, src, tar, 0, a, b, ra, rb, ha, hb, hra, hrb => by
    rw [compactFrom_cons, compactFrom_cons] at ha hb
    simp only [List.getElem?_cons_zero, List.getElem?_cons_succ, Option.some.injEq] at ha hb hra hrb
    subst hra hrb
    rw [ha] at hb
    by_cases hg : g = g'
    · rw [if_pos hg] at hb
      exact ⟨⟨fun _ => hg.symm, fun _ => hb.symm⟩, fun hne => absurd hg.symm hne⟩
    · rw [if_neg hg] at hb
      refine ⟨⟨fun hba => ?_, fun h => absurd h.symm hg⟩, fun _ => hb.symm⟩
      omega
  | g :: raw, src, tar, l + 1, a, b, ra, rb, ha, hb, hra, hrb => by
    rw [compactFrom_cons] at ha hb
    simp only [List.getElem?_cons_succ] at ha hb hra hrb
    exact compactFrom_step raw _ _ l a b ra rb ha hb hra hrb

/-- The values of a list in which every entry equals the one before it or follows it are
all the integers from its first to its last entry. -/
theorem chain_toFinset : ∀ (l : List Int) (a : Int),
    List.Chain (fun x y => y = x ∨ y = x + 1) a l →
    (a :: l).toFinset = Finset.Icc a ((a :: l).getLast (List.cons_ne_nil a l))
  | [], a, _ => by simp
  | b :: l, a, h => by
    have hc := List.chain_cons.1 h
    have ih := chain_toFinset l b hc.2
    have hb : b ∈ (b :: l).toFinset := by simp
    rw [ih, Finset.mem_Icc] at hb
    rw [List.toFinset_cons, ih, List.getLast_cons (List.cons_ne_nil b l)]
    ext x
    simp only [Finset.mem_insert, Finset.mem_Icc]
    rcases hc.1 with e | e <;> omega

/-- The number of distinct values of such a list. -/
theorem chain_dedup_length (l : List Int) (a : Int)
    (h : List.Chain (fun x y => y = x ∨ y = x + 1) a l) :
    ((a :: l).dedup.length : Int) = (a :: l).getLast (List.cons_ne_nil a l) - a + 1 := by
  have hle : a ≤ (a :: l).getLast (List.cons_ne_nil a l) := by
    have ha : a ∈ (a :: l).toFinset := by simp
    rw [chain_toFinset l a h, Finset.mem_Icc] at ha
    exact ha.2
  rw [← List.card_toFinset, chain_toFinset l a h, Int.card_Icc]
  omega

/-- The number of groups when the first raw bucket is not the initial `src`: the last id plus
one, which is the number of distinct ids. -/
theorem ngroups_eq (V : List variant) (modulo mdr : ℚ) (depth mac : Int) (v : variant)
    (hv : V.head? = some v) (hne : bucket_raw modulo v ≠ -1) :
    ( conditioning_set.initialize V modulo mdr depth mac).sites_pbwt_ngroups =
      some ((( conditioning_set.initialize V modulo mdr depth mac).sites_pbwt_grouping.dedup.length
        : Nat) : Int) := by
  have hg := grouping_eq V modulo mdr depth mac
  have hn : ( conditioning_set.initialize V modulo mdr depth mac).sites_pbwt_ngroups =
      ( conditioning_set.initialize V modulo mdr depth mac).sites_pbwt_grouping.getLast?.map
        (· + 1) := rfl
  rw [hn, hg]
  cases V with
  | nil => simp at hv
  | cons v' V' =>
    have : v' = v := by simpa using hv
    subst this
    rw [List.map_cons, compactFrom_cons, if_neg (fun e => hne e.symm)]
    have hch := compactFrom_chain (V'.map (bucket_raw modulo)) (bucket_raw modulo v') (-1 + 1)
    rw [List.getLast?_eq_getLast _ (List.cons_ne_nil _ _), Option.map_some',
      chain_dedup_length _ _ hch]
    simp

/-! ## Claims on `conditioning_set::initialize` -/

/-- C10 (as amended): the bucket ids `sites_pbwt_grouping` computed by
`conditioning_set::initialize`, one per site, are non-decreasing without gaps: every later
site's id equals the previous site's id or the previous id plus 1.  The first site's id is 0
provided its raw bucket `round(cm / modulo_selection)` is not -1, in particular for a
non-negative genetic position and a positive `modulo_selection`. -/
theorem C10_bucket_ids_contiguous (V : List variant) (modulo mdr : ℚ) (depth mac : Int) :
    ( conditioning_set.initialize V modulo mdr depth mac).sites_pbwt_grouping.length =
      V.length ∧
    (∀ (l : Nat) (a b : Int),
      ( conditioning_set.initialize V modulo mdr depth mac).sites_pbwt_grouping[l]? = some a →
      ( conditioning_set.initialize V modulo mdr depth mac).sites_pbwt_grouping[l + 1]? =
        some b →
      b = a ∨ b = a + 1) ∧
    (∀ v : variant, V.head? = some v → bucket_raw modulo v ≠ -1 →
      ( conditioning_set.initialize V modulo mdr depth mac).sites_pbwt_grouping.head? =
        some 0) ∧
    (∀ v : variant, V.head? = some v → 0 ≤ v.cm → 0 < modulo →
      ( conditioning_set.initialize V modulo mdr depth mac).sites_pbwt_grouping.head? =
        some 0) := by
  rw [grouping_eq]
  have hhead : ∀ v : variant, V.head? = some v → bucket_raw modulo v ≠ -1 →
      (compactFrom (-1) (-1) (V.map (bucket_raw modulo))).head? = some 0 := by
    intro v hv hne
    cases V with
    | nil => simp at hv
    | cons v' V' =>
      have : v' = v := by simpa using hv
      subst this
      exact compactFrom_head _ _ hne
  refine ⟨?_, ?_, hhead, ?_⟩
  · rw [compactFrom_length, List.length_map]
  · intro l a b ha hb
    exact chain_getElem? _ _ (compactFrom_chain _ (-1) (-1)) l a b ha hb
  · intro v hv hcm hmod
    refine hhead v hv ?_
    have := cround_nonneg (v.cm / modulo) (div_nonneg hcm (le_of_lt hmod))
    unfold bucket_raw
    omega

/-- C10 (counterexample to the claim as stated): a single site at genetic position -1 with
`modulo_selection = 1` has raw bucket -1, the initial value of `src`, and gets the id -1
instead of 0. -/
theorem C10_counterexample :
    bucket_raw 1 ⟨0, 0, -1⟩ = -1 ∧
    ( conditioning_set.initialize [⟨0, 0, -1⟩] 1 0 0 0).sites_pbwt_grouping = [-1] ∧
    ¬ (( conditioning_set.initialize [⟨0, 0, -1⟩] 1 0 0 0).sites_pbwt_grouping.head? =
      some 0) := by
  have h : bucket_raw 1 ⟨0, 0, -1⟩ = -1 := by
    unfold bucket_raw
    simp only [div_one]
    exact cround_neg_one
  have h2 : ( conditioning_set.initialize [⟨0, 0, -1⟩] 1 0 0 0).sites_pbwt_grouping = [-1] := by
    rw [grouping_eq, List.map_cons, List.map_nil, h]
    decide
  refine ⟨h, h2, ?_⟩
  rw [h2]
  decide

/-- C10 (witness): the four sites of the specification, at 0.0, 0.4, 1.2 and 1.3 cM with
`modulo_selection = 1`; the first raw bucket is 0 and the first id is 0. -/
theorem C10_witness :
    bucket_raw 1 ⟨0, 0, 0⟩ = 0 ∧
    ( conditioning_set.initialize
      [⟨0, 0, 0⟩, ⟨0, 0, 2 / 5⟩, ⟨0, 0, 6 / 5⟩, ⟨0, 0, 13 / 10⟩] 1 0 0 0).sites_pbwt_grouping.head?
        = some 0 :=
  have h : bucket_raw 1 ⟨0, 0, 0⟩ = 0 := by
    norm_num [bucket_raw, cround]
  ⟨h, (C10_bucket_ids_contiguous
      [⟨0, 0, 0⟩, ⟨0, 0, 2 / 5⟩, ⟨0, 0, 6 / 5⟩, ⟨0, 0, 13 / 10⟩] 1 0 0 0).2.2.1 ⟨0, 0, 0⟩ rfl
      (by rw [h]; decide)⟩

/-- C11 (as amended): for every non-empty site table, `sites_pbwt_ngroups` computed by
`conditioning_set::initialize` is the last compacted id plus 1; it equals the number of
distinct bucket ids occurring in `sites_pbwt_grouping` provided the first site's raw bucket
`round(cm / modulo_selection)` is not -1, in particular for a non-negative genetic position
and a positive `modulo_selection`. -/
theorem C11_ngroups_counts_ids (V : List variant) (modulo mdr : ℚ) (depth mac : Int) :
    (∀ last : Int,
      ( conditioning_set.initialize V modulo mdr depth mac).sites_pbwt_grouping.getLast? =
        some last →
      ( conditioning_set.initialize V modulo mdr depth mac).sites_pbwt_ngroups =
        some (last + 1)) ∧
    (∀ v : variant, V.head? = some v → bucket_raw modulo v ≠ -1 →
      ( conditioning_set.initialize V modulo mdr depth mac).sites_pbwt_ngroups =
        some ((( conditioning_set.initialize V modulo mdr depth mac).sites_pbwt_grouping.dedup.length
          : Nat) : Int)) ∧
    (∀ v : variant, V.head? = some v → 0 ≤ v.cm → 0 < modulo →
      ( conditioning_set.initialize V modulo mdr depth mac).sites_pbwt_ngroups =
        some ((( conditioning_set.initialize V modulo mdr depth mac).sites_pbwt_grouping.dedup.length
          : Nat) : Int)) := by
  refine ⟨fun last hl => ?_, fun v hv hne => ngroups_eq V modulo mdr depth mac v hv hne,
    fun v hv hcm hmod => ngroups_eq V modulo mdr depth mac v hv ?_⟩
  · have hn : ( conditioning_set.initialize V modulo mdr depth mac).sites_pbwt_ngroups =
        ( conditioning_set.initialize V modulo mdr depth mac).sites_pbwt_grouping.getLast?.map
          (· + 1) := rfl
    rw [hn, hl]
    rfl
  · have := cround_nonneg (v.cm / modulo) (div_nonneg hcm (le_of_lt hmod))
    unfold bucket_raw
    omega

/-- C11 (counterexample to the claim as stated): a single site at genetic position -1 with
`modulo_selection = 1` gets the id -1, so that `sites_pbwt_ngroups` is 0 while one bucket id
occurs. -/
theorem C11_counterexample :
    ( conditioning_set.initialize [⟨0, 0, -1⟩] 1 0 0 0).sites_pbwt_grouping = [-1] ∧
    ( conditioning_set.initialize [⟨0, 0, -1⟩] 1 0 0 0).sites_pbwt_ngroups = some 0 ∧
    ( conditioning_set.initialize [⟨0, 0, -1⟩] 1 0 0 0).sites_pbwt_grouping.dedup.length = 1 := by
  have h : bucket_raw 1 ⟨0, 0, -1⟩ = -1 := by
    unfold bucket_raw
    simp only [div_one]
    exact cround_neg_one
  have h2 : ( conditioning_set.initialize [⟨0, 0, -1⟩] 1 0 0 0).sites_pbwt_grouping = [-1] := by
    rw [grouping_eq, List.map_cons, List.map_nil, h]
    decide
  have hn : ( conditioning_set.initialize [⟨0, 0, -1⟩] 1 0 0 0).sites_pbwt_ngroups =
      ( conditioning_set.initialize [⟨0, 0, -1⟩] 1 0 0 0).sites_pbwt_grouping.getLast?.map
        (· + 1) := rfl
  refine ⟨h2, ?_, ?_⟩
  · rw [hn, h2]
    decide
  · rw [h2]
    decide

/-- C11 (witness): the four sites of the specification have the ids 0, 0, 1, 1, two distinct
ids, and `sites_pbwt_ngroups` is 2. -/
theorem C11_witness :
    ( conditioning_set.initialize scenarioSites 1 0 0 0).sites_pbwt_grouping = [0, 0, 1, 1] ∧
    ( conditioning_set.initialize scenarioSites 1 0 0 0).sites_pbwt_grouping.dedup.length = 2 ∧
    ( conditioning_set.initialize scenarioSites 1 0 0 0).sites_pbwt_ngroups =
      some ((( conditioning_set.initialize scenarioSites 1 0 0 0).sites_pbwt_grouping.dedup.length
        : Nat) : Int) :=
  ⟨scenarioSites_grouping 0 0 0, by rw [scenarioSites_grouping]; decide,
    (C11_ngroups_counts_ids scenarioSites 1 0 0 0).2.1 ⟨0, 0, 0⟩ rfl
      (by norm_num [bucket_raw, cround])⟩

/-- C12: the compaction of `conditioning_set::initialize` is the run-length collapsing of
the raw buckets `bucket_raw[l] = round(cm[l] / modulo_selection)`: for every site `l + 1`
the compacted id equals the id of site `l` iff the two raw buckets are equal, and is exactly
one larger otherwise, also when the raw bucket returns to an earlier value (raw buckets
0, 1, 0 get the ids 0, 1, 2).  For cm = 0.0, 0.4, 1.2, 1.3 and `modulo_selection = 1` the
raw buckets are 0, 0, 1, 1, the ids are 0, 0, 1, 1 and `sites_pbwt_ngroups` is 2. -/
theorem C12_run_length_collapsing (V : List variant) (modulo mdr : ℚ) (depth mac : Int) :
    (∀ (l : Nat) (a b ra rb : Int),
      ( conditioning_set.initialize V modulo mdr depth mac).sites_pbwt_grouping[l]? = some a →
      ( conditioning_set.initialize V modulo mdr depth mac).sites_pbwt_grouping[l + 1]? =
        some b →
      (V.map (bucket_raw modulo))[l]? = some ra →
      (V.map (bucket_raw modulo))[l + 1]? = some rb →
      (b = a ↔ rb = ra) ∧ (rb ≠ ra → b = a + 1)) ∧
    (∀ v : variant, bucket_raw modulo v = cround (v.cm / modulo)) ∧
    compact [0, 1, 0] = [0, 1, 2] ∧
    (scenarioSites.map (fun v => v.cm) = [0, 2 / 5, 6 / 5, 13 / 10] ∧
      scenarioSites.map (bucket_raw 1) = [0, 0, 1, 1] ∧
      ( conditioning_set.initialize scenarioSites 1 mdr depth mac).sites_pbwt_grouping =
        [0, 0, 1, 1] ∧
      ( conditioning_set.initialize scenarioSites 1 mdr depth mac).sites_pbwt_ngroups =
        some 2) := by
  refine ⟨fun l a b ra rb ha hb hra hrb => ?_, fun _ => rfl, by decide, rfl,
    scenarioSites_raw, scenarioSites_grouping mdr depth mac, ?_⟩
  · rw [grouping_eq] at ha hb
    exact compactFrom_step _ _ _ l a b ra rb ha hb hra hrb
  · have hn : ( conditioning_set.initialize scenarioSites 1 mdr depth mac).sites_pbwt_ngroups =
        ( conditioning_set.initialize scenarioSites 1 mdr depth mac).sites_pbwt_grouping.getLast?.map
          (· + 1) := rfl
    rw [hn, scenarioSites_grouping]
    decide

/-- C13 (the code at the failing input): on a site table with zero sites
`conditioning_set::initialize` raises no error; both vectors stay empty and
`sites_pbwt_ngroups` is read from `sites_pbwt_grouping.back()` of an empty vector, which has
no defined value. -/
theorem C13_zero_sites_unguarded (modulo mdr : ℚ) (depth mac : Int) :
    ( conditioning_set.initialize [] modulo mdr depth mac).sites_pbwt_grouping = [] ∧
    ( conditioning_set.initialize [] modulo mdr depth mac).sites_pbwt_evaluation = [] ∧
    ( conditioning_set.initialize [] modulo mdr depth mac).n_evaluated = 0 ∧
    ( conditioning_set.initialize [] modulo mdr depth mac).sites_pbwt_ngroups = none := by
  refine ⟨rfl, rfl, rfl, rfl⟩

/-- C15: `conditioning_set::initialize` marks site `l` eligible iff `MAC[l] ≥ mac` and
`MDR[l] ≤ mdr`, both bounds included (a site with `MAC = mac` and `MDR = mdr` is eligible);
the marks depend neither on the genetic positions nor on `modulo_selection`, hence not on
the buckets; the number of evaluated sites that is reported is the number of eligible
sites. -/
theorem C15_eligibility (V : List variant) (modulo mdr : ℚ) (depth mac : Int) :
    ( conditioning_set.initialize V modulo mdr depth mac).sites_pbwt_evaluation =
      V.map (fun v => decide (v.MAC ≥ mac ∧ v.MDR ≤ mdr)) ∧
    (∀ (l : Nat) (v : variant), V[l]? = some v →
      (( conditioning_set.initialize V modulo mdr depth mac).sites_pbwt_evaluation[l]? =
        some true ↔ (v.MAC ≥ mac ∧ v.MDR ≤ mdr)) ∧
      (( conditioning_set.initialize V modulo mdr depth mac).sites_pbwt_evaluation[l]? =
        some false ↔ ¬ (v.MAC ≥ mac ∧ v.MDR ≤ mdr))) ∧
    (∀ (V' : List variant) (modulo' : ℚ),
      V'.map (fun v => (v.MAC, v.MDR)) = V.map (fun v => (v.MAC, v.MDR)) →
      ( conditioning_set.initialize V' modulo' mdr depth mac).sites_pbwt_evaluation =
        ( conditioning_set.initialize V modulo mdr depth mac).sites_pbwt_evaluation) ∧
    ( conditioning_set.initialize V modulo mdr depth mac).n_evaluated =
      (V.filter (fun v => decide (v.MAC ≥ mac ∧ v.MDR ≤ mdr))).length ∧
    ( conditioning_set.initialize V modulo mdr depth mac).n_evaluated =
      ( conditioning_set.initialize V modulo mdr depth mac).sites_pbwt_evaluation.count true ∧
    (∀ v : variant, v.MAC = mac → v.MDR = mdr →
      ( conditioning_set.initialize [v] modulo mdr depth mac).sites_pbwt_evaluation = [true] ∧
      ( conditioning_set.initialize [v] modulo mdr depth mac).n_evaluated = 1) := by
  have hev : ∀ (V : List variant) (modulo : ℚ),
      ( conditioning_set.initialize V modulo mdr depth mac).sites_pbwt_evaluation =
        V.map (fun v => decide (v.MAC ≥ mac ∧ v.MDR ≤ mdr)) := fun _ _ => rfl
  have hn : ∀ V : List variant, ( conditioning_set.initialize V modulo mdr depth mac).n_evaluated =
      ( conditioning_set.initialize V modulo mdr depth mac).sites_pbwt_evaluation.count true :=
    fun _ => rfl
  refine ⟨hev V modulo, fun l v hv => ?_, fun V' modulo' hV => ?_, ?_, hn V, fun v h1 h2 => ?_⟩
  · rw [hev, List.getElem?_map, hv]
    simp
  · rw [hev, hev]
    have h := congrArg (List.map (fun p : Int × ℚ => decide (p.1 ≥ mac ∧ p.2 ≤ mdr))) hV
    simpa [List.map_map, Function.comp] using h
  · rw [hn, hev, List.count_eq_countP, List.countP_map, List.countP_eq_length_filter]
    congr 1
    apply List.filter_congr
    intro v _
    simp
  · rw [hn, hev]
    simp [h1, h2]

end phase2
